import Mathlib

/-!
Verification of the URLDate repository's `ExcelProcessor` pipeline
(`src/url_tool/microdrama/core/`): text utilities, staff-roster matching,
the whole-sheet and split-mode processing passes, resource cleanup, and
the URL validator.  Python machine-level details are embedded as follows:
cell values are `Option String` (openpyxl returns `None` for empty cells),
Python truthiness of such a value is `truthy`, fallible image operations
return `Option`, and file-system state is explicit.
-/

namespace URLDate

/-- Python truthiness of an optional cell text: `None` and `""` are falsy. -/
def truthy : Option String → Bool
  | none => false
  | some s => !s.isEmpty

/-- Whitespace as used by Python `str.strip()` / `\s`, restricted to the
ASCII range (the repository only ever feeds it spreadsheet text and URLs). -/
def isPySpace (c : Char) : Bool :=
  c = ' ' || c = '\t' || c = '\n' || c = '\r' || c = '\x0b' || c = '\x0c'

/-- `str.strip()` on a character list: drop whitespace from both ends. -/
def stripList (l : List Char) : List Char :=
  ((l.dropWhile isPySpace).reverse.dropWhile isPySpace).reverse

/-- `str.strip()` on a `String`. -/
def pyStrip (s : String) : String := ⟨stripList s.data⟩

/-- `text_utils.check_content_length`: `0` for falsy input, else the length
of the stripped text. -/
def check_content_length (text : Option String) : Nat :=
  match text with
  | none => 0
  | some s => if s.isEmpty then 0 else (stripList s.data).length

/-- `text_utils.has_invalid_actor_delimiter`: falsy input gives `False`,
otherwise test whether the text contains a literal hyphen. -/
def has_invalid_actor_delimiter (name : Option String) : Bool :=
  match name with
  | none => false
  | some s => if s.isEmpty then false else s.data.contains '-'

/-- Membership in the CJK block `[一-鿿]` of the extraction regex. -/
def isChineseChar (c : Char) : Bool :=
  0x4e00 ≤ c.toNat && c.toNat ≤ 0x9fff

/-- The maximal runs of a character class, as `re.findall(r"[cls]+", s)`
returns them: every maximal block of consecutive class characters, in
input order. -/
def maximalRuns (p : Char → Bool) (l : List Char) : List (List Char) :=
  match l with
  | [] => []
  | c :: cs =>
    if p c then (c :: cs.takeWhile p) :: maximalRuns p (cs.dropWhile p)
    else maximalRuns p cs
termination_by l.length
decreasing_by
  · simp only [List.length_cons]
    have hle := List.Sublist.length_le (List.dropWhile_sublist (l := cs) (p := p))
    omega
  · simp

/-- `text_utils.extract_chinese_name`: `re.findall(r"[一-鿿]+", s)`
joined with `""`.  Concatenating the maximal runs of a character class is
exactly filtering the string by that class (`extract_chinese_name_runs`
below proves this against `maximalRuns`). -/
def extract_chinese_name (name : Option String) : String :=
  match name with
  | none => ""
  | some s => if s.isEmpty then "" else ⟨s.data.filter isChineseChar⟩

/-- The seed roster `staff_db.DEFAULT_STAFF`. -/
def DEFAULT_STAFF : List (String × String) :=
  [("梁应伟", "001X"), ("邹林伶", "5829"), ("赵志强", "7299"), ("杨华", "4241"),
   ("廖政", "1610"), ("万亭", "174X"), ("任雪梅", "5802"), ("冉小娟", "1363"),
   ("张静", "8525")]

/-- `staff_db.load_staff_database`: if the JSON store holds a readable
mapping return it, otherwise write and return `DEFAULT_STAFF`.  The store
contents are passed explicitly (`none` = missing/unreadable file). -/
def load_staff_database (store : Option (List (String × String))) :
    List (String × String) :=
  match store with
  | some d => d
  | none => DEFAULT_STAFF

/-- `staff_db.match_staff_id`: falsy names match nothing; a falsy (empty)
`staff_db` argument makes the function load the persisted database instead
(`staff = staff_db or load_staff_database()`); then the concatenated
Chinese characters of the name are looked up. -/
def match_staff_id (name : Option String) (staff_db : List (String × String))
    (store : Option (List (String × String))) : Option String :=
  if !truthy name then none
  else
    let staff := if staff_db.isEmpty then load_staff_database store else staff_db
    let chinese_name := extract_chinese_name name
    if chinese_name.isEmpty then none
    else staff.lookup chinese_name

/-! ## URL validator

`text_utils.is_valid_url` compiles the regex

```
^https?://
(?:(?:[A-Z0-9](?:[A-Z0-9-]{0,61}[A-Z0-9])?\.)+[A-Z]{2,6}\.?|localhost|
   \d{1,3}\.\d{1,3}\.\d{1,3}\.\d{1,3})
(?::\d+)?(?:/?|[/?]\S+)$
```

with `re.IGNORECASE` and applies it to `url.strip()`.  The regex has no
capture-dependent features, so its Boolean acceptance is plain regular-
language membership.  We embed it by an all-remainders matcher: a `Matcher`
maps an input suffix to the list of suffixes left over after matching some
prefix; acceptance of the anchored pattern is `[]` being a possible
remainder.  Character classes are restricted to ASCII (the repository's
spreadsheet URLs); `re.IGNORECASE` on the letter literals is modelled with
`Char.toLower`, and on non-letter literals it has no effect, so those use
exact matching. -/

def Matcher : Type := List Char → List (List Char)

/-- Match the empty pattern: consume nothing. -/
def pEps : Matcher := fun s => [s]

/-- Match one character of the class `p`. -/
def pCls (p : Char → Bool) : Matcher
  | [] => []
  | c :: cs => if p c then [cs] else []

/-- Match an exact literal. -/
def pLit : List Char → Matcher
  | [], s => [s]
  | _ :: _, [] => []
  | e :: es, c :: cs => if c = e then pLit es cs else []

/-- Match a case-insensitive literal (given in lowercase). -/
def pLitCI : List Char → Matcher
  | [], s => [s]
  | _ :: _, [] => []
  | e :: es, c :: cs => if c.toLower = e then pLitCI es cs else []

/-- Concatenation of two patterns. -/
def pSeq (m1 m2 : Matcher) : Matcher := fun s => (m1 s).flatMap m2

/-- Ordered alternation `(?:a|b)`; for acceptance order is irrelevant. -/
def pAlt (m1 m2 : Matcher) : Matcher := fun s => m1 s ++ m2 s

/-- `(?:a)?`. -/
def pOpt (m : Matcher) : Matcher := fun s => s :: m s

/-- `p{0,n}` for a character class `p`. -/
def pRepMax (p : Char → Bool) : Nat → Matcher
  | 0 => pEps
  | n + 1 => fun s => s :: (pCls p s).flatMap (pRepMax p n)

/-- `p+` for a character class `p`: one or more class characters. -/
def pPlusCls (p : Char → Bool) : Matcher
  | [] => []
  | c :: cs => if p c then cs :: pPlusCls p cs else []

/-- Kleene iteration of `m`, fuelled; `m` is only ever used on patterns
that consume at least one character, so fuel `s.length` is exhaustive. -/
def pManyAux (m : Matcher) : Nat → Matcher
  | 0 => pEps
  | n + 1 => fun s => s :: (m s).flatMap (pManyAux m n)

/-- `(?:a)+` for a pattern consuming at least one character. -/
def pPlusM (m : Matcher) : Matcher :=
  fun s => pSeq m (fun t => pManyAux m t.length t) s

/-- ASCII letters (both cases, as under `re.IGNORECASE`). -/
def isAsciiAlpha (c : Char) : Bool :=
  ('A' ≤ c && c ≤ 'Z') || ('a' ≤ c && c ≤ 'z')

/-- ASCII digits `\d`. -/
def isAsciiDigit (c : Char) : Bool := '0' ≤ c && c ≤ '9'

/-- The class `[A-Z0-9]` under `re.IGNORECASE`. -/
def isAlnum (c : Char) : Bool := isAsciiAlpha c || isAsciiDigit c

/-- The class `[A-Z0-9-]` under `re.IGNORECASE`. -/
def isAlnumDash (c : Char) : Bool := isAlnum c || c = '-'

/-- `https?://`. -/
def schemeM : Matcher :=
  pSeq (pLitCI ['h', 't', 't', 'p'])
    (pSeq (pOpt (pCls (fun c => c.toLower = 's'))) (pLit [':', '/', '/']))

/-- A domain label `[A-Z0-9](?:[A-Z0-9-]{0,61}[A-Z0-9])?`. -/
def labelM : Matcher :=
  pSeq (pCls isAlnum) (pOpt (pSeq (pRepMax isAlnumDash 61) (pCls isAlnum)))

/-- A label followed by its dot. -/
def labelDotM : Matcher := pSeq labelM (pCls (fun c => c = '.'))

/-- The TLD `[A-Z]{2,6}`. -/
def tldM : Matcher :=
  pSeq (pCls isAsciiAlpha) (pSeq (pCls isAsciiAlpha) (pRepMax isAsciiAlpha 4))

/-- The domain alternative `(?:label\.)+[A-Z]{2,6}\.?`. -/
def domainM : Matcher :=
  pSeq (pPlusM labelDotM) (pSeq tldM (pOpt (pCls (fun c => c = '.'))))

/-- `\d{1,3}`. -/
def d13M : Matcher := pSeq (pCls isAsciiDigit) (pRepMax isAsciiDigit 2)

/-- The IPv4 alternative `\d{1,3}\.\d{1,3}\.\d{1,3}\.\d{1,3}`. -/
def ipv4M : Matcher :=
  pSeq d13M (pSeq (pCls (fun c => c = '.'))
    (pSeq d13M (pSeq (pCls (fun c => c = '.'))
      (pSeq d13M (pSeq (pCls (fun c => c = '.')) d13M)))))

/-- The host alternation. -/
def hostM : Matcher :=
  pAlt domainM (pAlt (pLitCI ['l', 'o', 'c', 'a', 'l', 'h', 'o', 's', 't']) ipv4M)

/-- The optional port `(?::\d+)?`. -/
def portM : Matcher :=
  pOpt (pSeq (pCls (fun c => c = ':')) (pPlusCls isAsciiDigit))

/-- The tail `(?:/?|[/?]\S+)`. -/
def pathM : Matcher :=
  pAlt (pOpt (pCls (fun c => c = '/')))
    (pSeq (pCls (fun c => c = '/' || c = '?')) (pPlusCls (fun c => !isPySpace c)))

/-- The full anchored pattern. -/
def fullM : Matcher := pSeq schemeM (pSeq hostM (pSeq portM pathM))

/-- Acceptance: the whole input is consumed by the pattern (the regex is
anchored by `^`/`re.match` and `$`; after `strip` there is no trailing
newline, so `$` is end of input). -/
def urlRegexAccepts (s : List Char) : Bool := decide ([] ∈ fullM s)

/-- `text_utils.is_valid_url`: falsy inputs are rejected, otherwise the
stripped string is matched against the pattern.  (The `isinstance` check
is captured by the type.) -/
def is_valid_url (url : String) : Bool :=
  if url.isEmpty then false else urlRegexAccepts (stripList url.data)

/-! ## Sheet model

An openpyxl worksheet, restricted to the observables the processor touches:
cell text values, the solid red fill `FFFF0000` used by the annotation
passes, and the list of embedded image anchors (row, column) in insertion
order. -/

structure Sheet where
  title : String
  maxRow : Nat
  maxCol : Nat
  val : Nat → Nat → Option String
  red : Nat → Nat → Bool
  images : List (Nat × Nat)

/-- `sheet.cell(row=r, column=c).value = v`. -/
def setVal (s : Sheet) (r c : Nat) (v : Option String) : Sheet :=
  { s with val := fun r' c' => if r' = r ∧ c' = c then v else s.val r' c' }

/-- `sheet.cell(row=r, column=c).fill = PatternFill("FFFF0000", solid)`. -/
def setRed (s : Sheet) (r c : Nat) : Sheet :=
  { s with red := fun r' c' => if r' = r ∧ c' = c then true else s.red r' c' }

/-- `sheet.add_image(img, anchor)` appends an anchored image. -/
def addImage (s : Sheet) (r c : Nat) : Sheet :=
  { s with images := s.images ++ [(r, c)] }

/-- `range(2, sheet.max_row + 1)`: the data-row indices `2 .. maxRow`. -/
def rowRange (s : Sheet) : List Nat := List.range' 2 (s.maxRow - 1)

/-- The column-9 test `i_cell.value and check_content_length(i_cell.value) < 100`. -/
def contentFlagCond (v : Option String) : Bool :=
  truthy v && decide (check_content_length v < 100)

/-- The column-7 test `g_cell.value and has_invalid_actor_delimiter(g_cell.value)`. -/
def actorFlagCond (v : Option String) : Bool :=
  truthy v && has_invalid_actor_delimiter v

/-- Content-length check of the annotation loop (lines 108–111). -/
def annotateRowContent (s : Sheet) (row : Nat) : Sheet :=
  if contentFlagCond (s.val row 9) then setRed s row 9 else s

/-- Actor-delimiter check of the annotation loop (lines 113–116). -/
def annotateRowActor (s : Sheet) (row : Nat) : Sheet :=
  if actorFlagCond (s.val row 7) then setRed s row 7 else s

/-- Staff-roster fill of the annotation loop (lines 118–123): a truthy
match result (a non-`None`, non-empty id) overwrites column 22. -/
def annotateRowStaff (db : List (String × String))
    (store : Option (List (String × String))) (s : Sheet) (row : Nat) : Sheet :=
  match match_staff_id (s.val row 20) db store with
  | some matched_id =>
    if matched_id.isEmpty then s else setVal s row 22 (some matched_id)
  | none => s

/-- One iteration of `_process_sheet`'s annotation loop (source lines
107–123): flag column 9 on short trimmed content, flag column 7 on a
hyphen, and write the roster match into column 22 when truthy. -/
def annotateRow (db : List (String × String))
    (store : Option (List (String × String))) (s : Sheet) (row : Nat) : Sheet :=
  annotateRowStaff db store (annotateRowActor (annotateRowContent s row) row) row

/-- The annotation loop over all data rows. -/
def annotateSheet (db : List (String × String))
    (store : Option (List (String × String))) (s : Sheet) : Sheet :=
  (rowRange s).foldl (annotateRow db store) s

/-- The test `cell_value and is_valid_url(str(cell_value))`. -/
def validUrlCell (v : Option String) : Bool :=
  match v with
  | some t => !t.isEmpty && is_valid_url t
  | none => false

/-- `str(cell_value).strip()` for a truthy cell. -/
def stripCell (v : Option String) : String := pyStrip (v.getD "")

/-- URL collection of `_process_sheet` (lines 130–136): data rows whose
column-8 value is truthy and passes `is_valid_url`; collects the stripped
URL together with its row. -/
def urlRows (s : Sheet) : List (String × Nat) :=
  (rowRange s).filterMap (fun row =>
    if validUrlCell (s.val row 8) then some (stripCell (s.val row 8), row) else none)

/-! ## Run environment and file-system state

Network and image decoding are oracles: `download url` is the result of
`image_fetcher.download_image` (`none` = non-2xx / non-image content-type /
network error), `resize` is `image_fetcher.resize_image` (`none` = decode
failure).  `download_images_concurrently` joins all workers and keys results
by submission index, so the result for a collected URL is exactly
`download url`.  Image bytes are abstract tokens (`Nat`). -/

structure Env where
  primary : Except String (List Sheet)
  fallback : Except String (List Sheet)
  configStore : Option Nat
  download : String → Option Nat
  resize : Nat → Option Nat
  store : Option (List (String × String))
  saveOk : String → Bool

/-- Mutable run state: the processor's `_temp_files` list, the set of
transient files on disk, a clock standing for `time.time()` (idealised to
tick between saves), and the spreadsheet files written out. -/
structure St where
  tempFiles : List String
  disk : List String
  clock : Nat
  saved : List (String × List Sheet)

/-- `image_fetcher.save_temp_image`: write `temp_image_{id}_{t}.jpg` into
the temp directory and return its path. -/
def save_temp_image (st : St) (identifier : String) : String × St :=
  let path := "temp/temp_image_" ++ identifier ++ "_" ++ toString st.clock ++ ".jpg"
  (path,
   { st with
     disk := if path ∈ st.disk then st.disk else st.disk ++ [path]
     clock := st.clock + 1 })

/-- The per-URL loop of `_process_sheet` (lines 149–160): for each
collected `(url, row)` in order, skip on download failure, skip on resize
failure, otherwise save a transient image, record it in `_temp_files`, and
map the row to the saved path. -/
def fetchImages (env : Env) : List (String × Nat) → St → List (Nat × String) × St
  | [], st => ([], st)
  | (url, row) :: rest, st =>
    match env.download url with
    | none => fetchImages env rest st
    | some image_data =>
      match env.resize image_data with
      | none => fetchImages env rest st
      | some _ =>
        let ps := save_temp_image st (toString row)
        let st1 := { ps.2 with tempFiles := ps.2.tempFiles ++ [ps.1] }
        let rec1 := fetchImages env rest st1
        ((row, ps.1) :: rec1.1, rec1.2)

/-- The clearing loop of `_process_sheet` (lines 162–163): set the
column-8 value of every data row to `None`. -/
def clearCol8 (s : Sheet) : Sheet :=
  (rowRange s).foldl (fun sh row => setVal sh row 8 none) s

/-- One iteration of the embedding loop of `_process_sheet` (lines
165–173): if a transient image was recorded for the row and exists on
disk, anchor an image at column 8 of that row. -/
def embedStep (paths : List (Nat × String)) (disk : List String)
    (sh : Sheet) (row : Nat) : Sheet :=
  match paths.lookup row with
  | some p => if p ∈ disk then addImage sh row 8 else sh
  | none => sh

/-- The embedding loop of `_process_sheet` over the URL rows in order. -/
def embedImages (paths : List (Nat × String)) (disk : List String)
    (rows : List Nat) (s : Sheet) : Sheet :=
  rows.foldl (embedStep paths disk) s

/-- `_process_sheet`: annotate, collect URLs (early return when none),
fetch and normalise, clear column 8, embed the successful images.  The
formatting pass (alignment, row heights, column width) mutates none of the
modelled observables and is omitted. -/
def processSheet (env : Env) (db : List (String × String)) (s : Sheet)
    (st : St) : Sheet × St :=
  let s1 := annotateSheet db env.store s
  let urls := urlRows s1
  if urls.isEmpty then (s1, st)
  else
    let fr := fetchImages env urls st
    let s2 := clearCol8 s1
    let s3 := embedImages fr.1 fr.2.disk (urls.map (fun e => e.2)) s2
    (s3, fr.2)

/-! ## Whole-workbook pass, split mode, and the top-level run -/

/-- `config_store.load_mode`: the persisted integer if it parses and is
`1` or `2`, otherwise `DEFAULT_MODE = 1`. -/
def load_mode (cfg : Option Nat) : Nat :=
  match cfg with
  | some m => if m = 1 ∨ m = 2 then m else 1
  | none => 1

/-- `_load_workbook`: try the standard load; on failure retry once with
the compatibility strategy, whose outcome (success or error) is final. -/
def loadWorkbook (primary fallbackLoad : Except String (List Sheet)) :
    Except String (List Sheet) :=
  match primary with
  | Except.ok wb => Except.ok wb
  | Except.error _ => fallbackLoad

/-- `_process_workbook_inplace`: process every worksheet in order with the
roster loaded once. -/
def processSheets (env : Env) (db : List (String × String)) :
    List Sheet → St → List Sheet × St
  | [], st => ([], st)
  | s :: rest, st =>
    let ps := processSheet env db s st
    let pr := processSheets env db rest ps.2
    (ps.1 :: pr.1, pr.2)

/-- Row 1 of the active sheet, columns `1 .. maxCol`
(`_process_with_split` line 185). -/
def headerOf (s : Sheet) : List (Option String) :=
  (List.range' 1 s.maxCol).map (fun c => s.val 1 c)

/-- The data rows of the active sheet, rows `2 .. maxRow`, each as its
list of values over columns `1 .. maxCol` (lines 186–189). -/
def dataRows (s : Sheet) : List (List (Option String)) :=
  (rowRange s).map (fun r => (List.range' 1 s.maxCol).map (fun c => s.val r c))

/-- URL collection of `_process_with_split` (lines 191–197).  Note the
source reads `row_data[7 - 1]`, i.e. list index 6 = column 7, and pairs
each stripped URL with its 0-based data-row index. -/
def splitUrlEntries (rows : List (List (Option String))) : List (Nat × String) :=
  rows.enum.filterMap (fun e =>
    if validUrlCell ((e.2[7 - 1]?).bind id)
    then some (e.1, stripCell ((e.2[7 - 1]?).bind id)) else none)

/-- The fetch/normalise/save loop of `_process_with_split` (lines
199–211), iterated in download-index order; builds `resized_cache`
mapping a 0-based source row index to its transient image path. -/
def splitFetch (env : Env) : List (Nat × String) → St → List (Nat × String) × St
  | [], st => ([], st)
  | (rowIndex, url) :: rest, st =>
    match env.download url with
    | none => splitFetch env rest st
    | some image_data =>
      match env.resize image_data with
      | none => splitFetch env rest st
      | some _ =>
        let ps := save_temp_image st ("split_" ++ toString rowIndex)
        let st1 := { ps.2 with tempFiles := ps.2.tempFiles ++ [ps.1] }
        let rec1 := splitFetch env rest st1
        ((rowIndex, ps.1) :: rec1.1, rec1.2)

/-- `data_rows[start:end]` slicing driven by `range(0, total, n)`, with
explicit fuel so the kernel can evaluate it. -/
def chunksOfAux (n : Nat) : Nat → List α → List (List α)
  | 0, _ => []
  | _, [] => []
  | fuel + 1, l => l.take n :: chunksOfAux n fuel (l.drop n)

/-- The chunk partition of the data rows (`part_size = 50` in the source). -/
def chunksOf (n : Nat) (l : List α) : List (List α) := chunksOfAux n l.length l

/-- A fresh chunk workbook sheet after the header/data copy loops (lines
220–231): row 1 holds the source header values, rows `2 .. len+1` hold the
chunk's rows, everything else is empty; `_copy_cell_style` clones the
header fills from the source's row 1; a fresh sheet has no images. -/
def mkChunkSheet (src : Sheet) (chunk : List (List (Option String))) : Sheet :=
  { title := src.title
    maxRow := chunk.length + 1
    maxCol := src.maxCol
    val := fun r c =>
      if r = 1 ∧ 1 ≤ c ∧ c ≤ src.maxCol then ((headerOf src)[c - 1]?).bind id
      else if 2 ≤ r ∧ r ≤ chunk.length + 1 ∧ 1 ≤ c ∧ c ≤ src.maxCol then
        (chunk[r - 2]?).bind (fun rowData => (rowData[c - 1]?).bind id)
      else none
    red := fun r c => if r = 1 ∧ 1 ≤ c ∧ c ≤ src.maxCol then src.red 1 c else false
    images := [] }

/-- The chunk image-embedding loop (lines 269–277): for each chunk offset,
look up `resized_cache` at the source index `start + offset` and anchor the
image at local row `offset + 2`, column 8. -/
def embedChunkStep (cache : List (Nat × String)) (disk : List String)
    (start : Nat) (sh : Sheet) (offset : Nat) : Sheet :=
  match cache.lookup (start + offset) with
  | some p => if p ∈ disk then addImage sh (offset + 2) 8 else sh
  | none => sh

/-- The chunk embedding loop over the chunk offsets in order. -/
def embedChunkImages (cache : List (Nat × String)) (disk : List String)
    (start : Nat) (chunkLen : Nat) (s : Sheet) : Sheet :=
  (List.range chunkLen).foldl (embedChunkStep cache disk start) s

/-- The output filename of chunk `idx` (0-based): `_part{idx+1}` when the
sheet is split into several files, `_converted` when a single chunk
results (line 279–281). -/
def splitPathName (base : String) (total : Nat) (idx : Nat) : String :=
  if total > 50 then base ++ "_part" ++ toString (idx + 1) ++ ".xlsx"
  else base ++ "_converted.xlsx"

/-- The fully processed sheet of one chunk: build, annotate, clear
column 8, embed the chunk's images. -/
def splitOutSheet (db : List (String × String))
    (store : Option (List (String × String))) (src : Sheet)
    (cache : List (Nat × String)) (disk : List String) (idx : Nat)
    (chunk : List (List (Option String))) : Sheet :=
  embedChunkImages cache disk (idx * 50) chunk.length
    (clearCol8 (annotateSheet db store (mkChunkSheet src chunk)))

/-- The per-chunk body of `_process_with_split` (lines 216–283), iterated
over the enumerated chunks: build the chunk sheet, annotate, clear
column 8, embed, and save; a save failure raises out of the loop (files
already saved stay on disk). -/
def splitLoop (env : Env) (db : List (String × String)) (src : Sheet)
    (base : String) (total : Nat) (cache : List (Nat × String)) :
    List (Nat × List (List (Option String))) → St →
    Except String (List String) × St
  | [], st => (Except.ok [], st)
  | (idx, chunk) :: rest, st =>
    let ws3 := splitOutSheet db env.store src cache st.disk idx chunk
    let path := splitPathName base total idx
    if env.saveOk path then
      let st1 := { st with saved := st.saved ++ [(path, [ws3])] }
      let r1 := splitLoop env db src base total cache rest st1
      match r1.1 with
      | Except.ok paths => (Except.ok (path :: paths), r1.2)
      | Except.error e => (Except.error e, r1.2)
    else (Except.error "save failed", st)

/-- `_process_with_split` on the active sheet.  The embedding loop indexes
chunk offsets against the chunk's own length, which equals the slice
semantics of the source's `enumerate(chunk)`. -/
def processSplit (env : Env) (base : String) (src : Sheet) (st : St) :
    Except String (List String) × St :=
  let db := load_staff_database env.store
  let data := dataRows src
  let entries := splitUrlEntries data
  let fr := splitFetch env entries st
  splitLoop env db src base data.length fr.1 (chunksOf 50 data).enum fr.2

/-- The body of `process` (lines 48–66), producing the run result and the
state reached just before the `finally` block.  An error value models an
exception propagating out of the `try`. -/
def runBody (env : Env) (base : String) (mode : Nat) (st : St) :
    Except String (List String) × St :=
  match loadWorkbook env.primary env.fallback with
  | Except.error e => (Except.error e, st)
  | Except.ok sheets =>
    match sheets.head? with
    | none => (Except.error "no active worksheet", st)
    | some active =>
      let dataRowCount := active.maxRow - 1
      if mode = 1 ∧ dataRowCount > 50 then processSplit env base active st
      else
        let pw := processSheets env (load_staff_database env.store) sheets st
        let path := base ++ "_converted.xlsx"
        if env.saveOk path then
          (Except.ok [path], { pw.2 with saved := pw.2.saved ++ [(path, pw.1)] })
        else (Except.error "save failed", pw.2)

/-- `_cleanup`'s deletion loop (lines 344–349): for each recorded file, if
it exists try to unlink it; a deletion failure (`deleteOk f = false`) is
caught, logged, and the loop continues with the remaining files. -/
def cleanupFiles (deleteOk : String → Bool) (temps : List String)
    (disk : List String) : List String :=
  temps.foldl (fun d f => if f ∈ d ∧ deleteOk f = true then d.erase f else d) disk

/-- `_cleanup`: run the deletion loop and clear `_temp_files`.  (The
removal of the then-empty temp directory touches no files.) -/
def cleanup (deleteOk : String → Bool) (st : St) : St :=
  { st with tempFiles := [], disk := cleanupFiles deleteOk st.tempFiles st.disk }

/-- Everything observable about one `process` call. -/
structure RunOut where
  result : Except String (List String)
  recorded : List String
  st : St

/-- `mode = mode or load_mode()`: a falsy (absent or zero) argument falls
back to the persisted mode. -/
def resolveMode (env : Env) (modeArg : Option Nat) : Nat :=
  match modeArg with
  | some m => if m = 0 then load_mode env.configStore else m
  | none => load_mode env.configStore

/-- `process` (lines 46–68): resolve the mode, run the body under
`try … finally self._cleanup()`, and report the body's outcome — a normal
return or a re-raised exception — after cleanup.  `_temp_files` is empty
at entry (`__init__` initialises it and `_cleanup` clears it);
`recorded` is the list of transient files registered during this run. -/
def process (env : Env) (deleteOk : String → Bool) (base : String)
    (modeArg : Option Nat) (st0 : St) : RunOut :=
  let body := runBody env base (resolveMode env modeArg) { st0 with tempFiles := [] }
  { result := body.1
    recorded := body.2.tempFiles
    st := cleanup deleteOk body.2 }

/-- The saved-and-on-disk test the embedding loop performs for a row. -/
def embedCond (paths : List (Nat × String)) (disk : List String) (row : Nat) : Bool :=
  match paths.lookup row with
  | some p => decide (p ∈ disk)
  | none => false

/-! ## Fetch-success predicate and concrete fixtures -/

/-- A URL's fetch-and-normalise pipeline succeeded. -/
def fetchSuccess (env : Env) (u : String) : Bool :=
  ((env.download u).bind env.resize).isSome

/-- A concrete sheet whose only data row holds non-URL text in column 8. -/
def cexSheet : Sheet :=
  { title := "Sheet1", maxRow := 2, maxCol := 8,
    val := fun r c => if r = 2 ∧ c = 8 then some "hello" else none,
    red := fun _ _ => false, images := [] }

/-- A concrete environment for counterexample and witness runs. -/
def cexEnv : Env :=
  { primary := Except.ok [cexSheet], fallback := Except.ok [cexSheet],
    configStore := none, download := fun _ => none, resize := fun _ => none,
    store := some [("张静", "8525")], saveOk := fun _ => true }

/-- A fresh run state. -/
def cexSt : St := { tempFiles := [], disk := [], clock := 0, saved := [] }

/-! ## Matcher characterization predicate (C6)

`Chz m Q` states that the remainders produced by `m` on `s` are exactly
the suffixes `r` with `s = t ++ r` for some consumed prefix `t` in the
language `Q` — i.e. `m` implements the regular sub-language `Q` in the
all-remainders semantics. -/

def Chz (m : Matcher) (Q : List Char → Prop) : Prop :=
  ∀ s r, r ∈ m s ↔ ∃ t, s = t ++ r ∧ Q t

/-- Concatenations of zero or more blocks from the language `Q`. -/
inductive Blocks (Q : List Char → Prop) : List Char → Prop
  | nil : Blocks Q []
  | cons {t u : List Char} : Q t → Blocks Q u → Blocks Q (t ++ u)

/-! ## The URL shape of the specification (C6)

`IsUrlShape` is the claim's reading of a valid URL:
`scheme://host[:port][/path]` with scheme `http` or `https`
(case-insensitively) and a host that is a domain-with-TLD, `localhost`, or
a dotted-quad IPv4, with optional port and optional path/query. -/

/-- The scheme is `http` or `https`, case-insensitively. -/
def SchemeOk (t : List Char) : Prop :=
  t.map Char.toLower = ['h', 't', 't', 'p'] ∨
  t.map Char.toLower = ['h', 't', 't', 'p', 's']

/-- A domain label: starts and ends alphanumeric, at most 63 characters,
with alphanumerics and hyphens in between. -/
def LabelOk (t : List Char) : Prop :=
  ∃ c u, t = c :: u ∧ isAlnum c = true ∧
    (u = [] ∨ ∃ mid d, u = mid ++ [d] ∧ mid.length ≤ 61 ∧
      (∀ x ∈ mid, isAlnumDash x = true) ∧ isAlnum d = true)

/-- A top-level domain: two to six letters. -/
def TldOk (t : List Char) : Prop :=
  2 ≤ t.length ∧ t.length ≤ 6 ∧ ∀ c ∈ t, isAsciiAlpha c = true

/-- A domain with TLD: one or more dot-terminated labels, a TLD, an
optional trailing dot. -/
def DomainOk (h : List Char) : Prop :=
  ∃ (labels : List (List Char)) (tld tail : List Char),
    h = (labels.map (fun l => l ++ ['.'])).flatten ++ tld ++ tail ∧
    labels ≠ [] ∧ (∀ l ∈ labels, LabelOk l) ∧ TldOk tld ∧
    (tail = [] ∨ tail = ['.'])

/-- One to three digits. -/
def DigitRun13 (t : List Char) : Prop :=
  1 ≤ t.length ∧ t.length ≤ 3 ∧ ∀ c ∈ t, isAsciiDigit c = true

/-- A dotted-quad IPv4 host. -/
def Ipv4Ok (h : List Char) : Prop :=
  ∃ a b c d, h = a ++ '.' :: (b ++ '.' :: (c ++ '.' :: d)) ∧
    DigitRun13 a ∧ DigitRun13 b ∧ DigitRun13 c ∧ DigitRun13 d

/-- The literal host `localhost`, case-insensitively. -/
def LocalhostOk (h : List Char) : Prop :=
  h.map Char.toLower = ['l', 'o', 'c', 'a', 'l', 'h', 'o', 's', 't']

/-- A syntactically valid host. -/
def HostOk (h : List Char) : Prop := DomainOk h ∨ LocalhostOk h ∨ Ipv4Ok h

/-- An optional `:digits` port. -/
def PortOk (t : List Char) : Prop :=
  t = [] ∨ ∃ d, t = ':' :: d ∧ d ≠ [] ∧ ∀ c ∈ d, isAsciiDigit c = true

/-- An optional path/query: nothing, a bare `/`, or `/` or `?` followed by
at least one non-whitespace character. -/
def PathOk (t : List Char) : Prop :=
  t = [] ∨ t = ['/'] ∨
    ∃ c u, t = c :: u ∧ (c = '/' ∨ c = '?') ∧ u ≠ [] ∧
      ∀ x ∈ u, isPySpace x = false

/-- The URL shape described by the specification. -/
def IsUrlShape (s : List Char) : Prop :=
  ∃ scheme host port path,
    s = scheme ++ [':', '/', '/'] ++ host ++ port ++ path ∧
    SchemeOk scheme ∧ HostOk host ∧ PortOk port ∧ PathOk path

/-! ## Concrete witness fixtures -/

/-- A sheet whose only data row holds a valid URL in column 8. -/
def wUrlSheet : Sheet :=
  { title := "w", maxRow := 2, maxCol := 8,
    val := fun r c => if r = 2 ∧ c = 8 then some "http://a.bc" else none,
    red := fun _ _ => false, images := [] }

/-- A sheet whose only data row holds a reviewer name in column 20 and a
99-character summary in column 9. -/
def wStaffSheet : Sheet :=
  { title := "w", maxRow := 2, maxCol := 22,
    val := fun r c =>
      if r = 2 ∧ c = 20 then some "张静-复审"
      else if r = 2 ∧ c = 9 then some (String.mk (List.replicate 99 'a'))
      else none,
    red := fun _ _ => false, images := [] }

/-- A source sheet with 120 empty data rows for the split scenario. -/
def wSplitSrc : Sheet :=
  { title := "w", maxRow := 121, maxCol := 1,
    val := fun _ _ => none, red := fun _ _ => false, images := [] }

/-- An environment whose fetch pipeline always succeeds and whose saves
succeed. -/
def wEnv : Env :=
  { primary := Except.ok [wUrlSheet], fallback := Except.ok [wUrlSheet],
    configStore := some 2, download := fun _ => some 1,
    resize := fun b => some b, store := some [("张静", "8525")],
    saveOk := fun _ => true }

/-- An environment whose both load attempts fail. -/
def wFailEnv : Env :=
  { primary := Except.error "standard load failed",
    fallback := Except.error "compat load failed",
    configStore := some 2, download := fun _ => none,
    resize := fun _ => none, store := none, saveOk := fun _ => true }

/-- Joining the maximal runs of a class is filtering by that class. -/
theorem maximalRuns_flatten (p : Char → Bool) (l : List Char) :
    (maximalRuns p l).flatten = l.filter p := by
  have haux : ∀ (k : Nat) (l : List Char), l.length ≤ k →
      (maximalRuns p l).flatten = l.filter p := by
    intro k
    induction k with
    | zero =>
      intro l hl
      rcases List.length_eq_zero.mp (Nat.le_zero.mp hl) with rfl
      simp [maximalRuns]
    | succ k ih =>
      intro l hl
      cases l with
      | nil => simp [maximalRuns]
      | cons c cs =>
        rw [maximalRuns]
        by_cases hc : p c = true
        · rw [if_pos hc, List.flatten_cons, List.filter_cons_of_pos hc]
          have hdw : (cs.dropWhile p).length ≤ k := by
            have hle := List.Sublist.length_le
              (List.dropWhile_sublist (l := cs) (p := p))
            simp only [List.length_cons] at hl
            omega
          rw [ih (cs.dropWhile p) hdw, List.cons_append]
          congr 1
          conv_rhs => rw [← List.takeWhile_append_dropWhile (p := p) (l := cs)]
          rw [List.filter_append]
          congr 1
          exact (List.filter_eq_self.mpr
            (fun a ha => List.mem_takeWhile_imp ha)).symm
        · rw [if_neg hc, List.filter_cons_of_neg (by simpa using hc)]
          exact ih cs (by simpa using hl)
  exact haux l.length l le_rfl

/-- `extract_chinese_name` equals the source's join of the `re.findall`
runs of Chinese characters. -/
theorem extract_chinese_name_runs (name : Option String) :
    extract_chinese_name name =
      ⟨(maximalRuns isChineseChar (name.getD "").data).flatten⟩ := by
  cases name with
  | none =>
    show "" = _
    rw [maximalRuns_flatten]
    rfl
  | some s =>
    unfold extract_chinese_name
    dsimp only
    by_cases he : s.isEmpty = true
    · rw [if_pos he]
      have hse : s = "" := (String.isEmpty_iff s).mp he
      subst hse
      rw [maximalRuns_flatten]
      rfl
    · rw [if_neg he]
      exact congrArg String.mk (maximalRuns_flatten isChineseChar s.data).symm

/-- C10: `match_staff_id` consults the caller-supplied roster only when it
is non-empty; called with an empty mapping it falls back to the persisted
staff database loaded from the store, so names present in the persisted
database still match (it does not report a miss for every name).  The
second conjunct shows non-vacuity: with an empty roster argument and a
missing store file, the default database still yields a hit. -/
theorem match_staff_id_empty_roster_falls_back :
    (∀ (name : Option String) (store : Option (List (String × String))),
      match_staff_id name [] store =
        (if !truthy name then none
         else if (extract_chinese_name name).isEmpty then none
         else (load_staff_database store).lookup (extract_chinese_name name)))
    ∧ match_staff_id (some "张静") [] none = some "8525" := by
  constructor
  · intro name store
    simp only [match_staff_id, List.isEmpty_nil, if_true]
  · decide

/-! ## Lemmas: cell updates and the per-row annotation -/

theorem setVal_val (s : Sheet) (r c : Nat) (v : Option String) (r' c' : Nat) :
    (setVal s r c v).val r' c' = if r' = r ∧ c' = c then v else s.val r' c' := rfl

theorem setVal_red (s : Sheet) (r c : Nat) (v : Option String) :
    (setVal s r c v).red = s.red := rfl

theorem setVal_maxRow (s : Sheet) (r c : Nat) (v : Option String) :
    (setVal s r c v).maxRow = s.maxRow := rfl

theorem setVal_maxCol (s : Sheet) (r c : Nat) (v : Option String) :
    (setVal s r c v).maxCol = s.maxCol := rfl

theorem setVal_images (s : Sheet) (r c : Nat) (v : Option String) :
    (setVal s r c v).images = s.images := rfl

theorem setRed_val (s : Sheet) (r c : Nat) : (setRed s r c).val = s.val := rfl

theorem setRed_red (s : Sheet) (r c r' c' : Nat) :
    (setRed s r c).red r' c' = if r' = r ∧ c' = c then true else s.red r' c' := rfl

theorem annotateRowContent_val (s : Sheet) (row : Nat) :
    (annotateRowContent s row).val = s.val := by
  unfold annotateRowContent; split <;> rfl

theorem annotateRowContent_maxRow (s : Sheet) (row : Nat) :
    (annotateRowContent s row).maxRow = s.maxRow := by
  unfold annotateRowContent; split <;> rfl

theorem annotateRowContent_maxCol (s : Sheet) (row : Nat) :
    (annotateRowContent s row).maxCol = s.maxCol := by
  unfold annotateRowContent; split <;> rfl

theorem annotateRowContent_images (s : Sheet) (row : Nat) :
    (annotateRowContent s row).images = s.images := by
  unfold annotateRowContent; split <;> rfl

theorem annotateRowContent_red (s : Sheet) (row r c : Nat) :
    (annotateRowContent s row).red r c =
      if r = row ∧ c = 9 then s.red r c || contentFlagCond (s.val row 9)
      else s.red r c := by
  unfold annotateRowContent
  by_cases h : contentFlagCond (s.val row 9) = true
  · rw [if_pos h, setRed_red]
    by_cases h2 : r = row ∧ c = 9 <;> simp [h2, h]
  · rw [if_neg h]
    have hf : contentFlagCond (s.val row 9) = false := by
      cases hc : contentFlagCond (s.val row 9)
      · rfl
      · exact absurd hc h
    by_cases h2 : r = row ∧ c = 9 <;> simp [h2, hf]

theorem annotateRowActor_val (s : Sheet) (row : Nat) :
    (annotateRowActor s row).val = s.val := by
  unfold annotateRowActor; split <;> rfl

theorem annotateRowActor_maxRow (s : Sheet) (row : Nat) :
    (annotateRowActor s row).maxRow = s.maxRow := by
  unfold annotateRowActor; split <;> rfl

theorem annotateRowActor_maxCol (s : Sheet) (row : Nat) :
    (annotateRowActor s row).maxCol = s.maxCol := by
  unfold annotateRowActor; split <;> rfl

theorem annotateRowActor_images (s : Sheet) (row : Nat) :
    (annotateRowActor s row).images = s.images := by
  unfold annotateRowActor; split <;> rfl

theorem annotateRowActor_red (s : Sheet) (row r c : Nat) :
    (annotateRowActor s row).red r c =
      if r = row ∧ c = 7 then s.red r c || actorFlagCond (s.val row 7)
      else s.red r c := by
  unfold annotateRowActor
  by_cases h : actorFlagCond (s.val row 7) = true
  · rw [if_pos h, setRed_red]
    by_cases h2 : r = row ∧ c = 7 <;> simp [h2, h]
  · rw [if_neg h]
    have hf : actorFlagCond (s.val row 7) = false := by
      cases hc : actorFlagCond (s.val row 7)
      · rfl
      · exact absurd hc h
    by_cases h2 : r = row ∧ c = 7 <;> simp [h2, hf]

theorem annotateRowStaff_red (db : List (String × String))
    (store : Option (List (String × String))) (s : Sheet) (row : Nat) :
    (annotateRowStaff db store s row).red = s.red := by
  unfold annotateRowStaff
  cases hm : match_staff_id (s.val row 20) db store with
  | none => rfl
  | some id => dsimp only; split <;> rfl

theorem annotateRowStaff_maxRow (db : List (String × String))
    (store : Option (List (String × String))) (s : Sheet) (row : Nat) :
    (annotateRowStaff db store s row).maxRow = s.maxRow := by
  unfold annotateRowStaff
  cases hm : match_staff_id (s.val row 20) db store with
  | none => rfl
  | some id => dsimp only; split <;> rfl

theorem annotateRowStaff_maxCol (db : List (String × String))
    (store : Option (List (String × String))) (s : Sheet) (row : Nat) :
    (annotateRowStaff db store s row).maxCol = s.maxCol := by
  unfold annotateRowStaff
  cases hm : match_staff_id (s.val row 20) db store with
  | none => rfl
  | some id => dsimp only; split <;> rfl

theorem annotateRowStaff_images (db : List (String × String))
    (store : Option (List (String × String))) (s : Sheet) (row : Nat) :
    (annotateRowStaff db store s row).images = s.images := by
  unfold annotateRowStaff
  cases hm : match_staff_id (s.val row 20) db store with
  | none => rfl
  | some id => dsimp only; split <;> rfl

theorem annotateRowStaff_val (db : List (String × String))
    (store : Option (List (String × String))) (s : Sheet) (row r c : Nat) :
    (annotateRowStaff db store s row).val r c =
      match match_staff_id (s.val row 20) db store with
      | some id =>
        if id.isEmpty then s.val r c
        else if r = row ∧ c = 22 then some id else s.val r c
      | none => s.val r c := by
  unfold annotateRowStaff
  cases hm : match_staff_id (s.val row 20) db store with
  | none => rfl
  | some id =>
    by_cases h : id.isEmpty = true
    · simp [h]
    · have hf : id.isEmpty = false := by
        cases hc : id.isEmpty
        · rfl
        · exact absurd hc h
      simp [hf, setVal_val]

theorem annotateRow_val (db : List (String × String))
    (store : Option (List (String × String))) (s : Sheet) (row r c : Nat) :
    (annotateRow db store s row).val r c =
      match match_staff_id (s.val row 20) db store with
      | some id =>
        if id.isEmpty then s.val r c
        else if r = row ∧ c = 22 then some id else s.val r c
      | none => s.val r c := by
  unfold annotateRow
  rw [annotateRowStaff_val, annotateRowActor_val, annotateRowContent_val]

theorem annotateRow_red (db : List (String × String))
    (store : Option (List (String × String))) (s : Sheet) (row r c : Nat) :
    (annotateRow db store s row).red r c =
      if r = row ∧ c = 9 then s.red r c || contentFlagCond (s.val row 9)
      else if r = row ∧ c = 7 then s.red r c || actorFlagCond (s.val row 7)
      else s.red r c := by
  unfold annotateRow
  rw [annotateRowStaff_red, annotateRowActor_red, annotateRowContent_val,
    annotateRowContent_red]
  by_cases h9 : r = row ∧ c = 9
  · have h7 : ¬(r = row ∧ c = 7) := by
      rintro ⟨_, hc⟩
      rw [hc] at h9
      omega
    simp [h9, h7]
  · by_cases h7 : r = row ∧ c = 7 <;> simp [h9, h7]

theorem annotateRow_maxRow (db : List (String × String))
    (store : Option (List (String × String))) (s : Sheet) (row : Nat) :
    (annotateRow db store s row).maxRow = s.maxRow := by
  unfold annotateRow
  rw [annotateRowStaff_maxRow, annotateRowActor_maxRow, annotateRowContent_maxRow]

theorem annotateRow_maxCol (db : List (String × String))
    (store : Option (List (String × String))) (s : Sheet) (row : Nat) :
    (annotateRow db store s row).maxCol = s.maxCol := by
  unfold annotateRow
  rw [annotateRowStaff_maxCol, annotateRowActor_maxCol, annotateRowContent_maxCol]

theorem annotateRow_images (db : List (String × String))
    (store : Option (List (String × String))) (s : Sheet) (row : Nat) :
    (annotateRow db store s row).images = s.images := by
  unfold annotateRow
  rw [annotateRowStaff_images, annotateRowActor_images, annotateRowContent_images]

/-! ## Lemmas: the annotation, clearing and embedding loops -/

theorem mem_rowRange (s : Sheet) (r : Nat) :
    r ∈ rowRange s ↔ 2 ≤ r ∧ r ≤ s.maxRow := by
  unfold rowRange
  rw [List.mem_range'_1]
  omega

theorem rowRange_nodup (s : Sheet) : (rowRange s).Nodup :=
  List.nodup_range' 2 (s.maxRow - 1)

theorem annotateRow_val_congr (db : List (String × String))
    (store : Option (List (String × String))) (s1 s2 : Sheet) (row r c : Nat)
    (h20 : s1.val row 20 = s2.val row 20) (hc : s1.val r c = s2.val r c) :
    (annotateRow db store s1 row).val r c = (annotateRow db store s2 row).val r c := by
  rw [annotateRow_val, annotateRow_val, h20, hc]

theorem annotateRow_red_congr (db : List (String × String))
    (store : Option (List (String × String))) (s1 s2 : Sheet) (row r c : Nat)
    (h9 : s1.val row 9 = s2.val row 9) (h7 : s1.val row 7 = s2.val row 7)
    (hc : s1.red r c = s2.red r c) :
    (annotateRow db store s1 row).red r c = (annotateRow db store s2 row).red r c := by
  rw [annotateRow_red, annotateRow_red, h9, h7, hc]

theorem annotateRow_val_other (db : List (String × String))
    (store : Option (List (String × String))) (s : Sheet) (row r c : Nat)
    (h : r ≠ row) :
    (annotateRow db store s row).val r c = s.val r c := by
  rw [annotateRow_val]
  cases match_staff_id (s.val row 20) db store with
  | none => rfl
  | some id =>
    by_cases he : id.isEmpty = true
    · simp [he]
    · have hcond : ¬(r = row ∧ c = 22) := fun hh => h hh.1
      simp [he, hcond]

theorem annotateRow_val_ne22 (db : List (String × String))
    (store : Option (List (String × String))) (s : Sheet) (row r c : Nat)
    (h : c ≠ 22) :
    (annotateRow db store s row).val r c = s.val r c := by
  rw [annotateRow_val]
  cases match_staff_id (s.val row 20) db store with
  | none => rfl
  | some id =>
    by_cases he : id.isEmpty = true
    · simp [he]
    · have hcond : ¬(r = row ∧ c = 22) := fun hh => h hh.2
      simp [he, hcond]

theorem annotateRow_red_other (db : List (String × String))
    (store : Option (List (String × String))) (s : Sheet) (row r c : Nat)
    (h : r ≠ row) :
    (annotateRow db store s row).red r c = s.red r c := by
  rw [annotateRow_red]
  have h9 : ¬(r = row ∧ c = 9) := fun hh => h hh.1
  have h7 : ¬(r = row ∧ c = 7) := fun hh => h hh.1
  simp [h9, h7]

theorem foldl_annotateRow_val_notMem (db : List (String × String))
    (store : Option (List (String × String))) (rows : List Nat) (s : Sheet)
    (r c : Nat) (h : r ∉ rows) :
    (rows.foldl (annotateRow db store) s).val r c = s.val r c := by
  induction rows generalizing s with
  | nil => rfl
  | cons a t ih =>
    rw [List.foldl_cons, ih _ (fun hm => h (List.mem_cons_of_mem _ hm))]
    exact annotateRow_val_other db store s a r c
      (fun he => h (he ▸ List.mem_cons_self a t))

theorem foldl_annotateRow_red_notMem (db : List (String × String))
    (store : Option (List (String × String))) (rows : List Nat) (s : Sheet)
    (r c : Nat) (h : r ∉ rows) :
    (rows.foldl (annotateRow db store) s).red r c = s.red r c := by
  induction rows generalizing s with
  | nil => rfl
  | cons a t ih =>
    rw [List.foldl_cons, ih _ (fun hm => h (List.mem_cons_of_mem _ hm))]
    exact annotateRow_red_other db store s a r c
      (fun he => h (he ▸ List.mem_cons_self a t))

theorem foldl_annotateRow_val (db : List (String × String))
    (store : Option (List (String × String))) (rows : List Nat) (s : Sheet)
    (r c : Nat) (hnd : rows.Nodup) :
    (rows.foldl (annotateRow db store) s).val r c =
      if r ∈ rows then (annotateRow db store s r).val r c else s.val r c := by
  induction rows generalizing s with
  | nil => simp
  | cons a t ih =>
    rcases List.nodup_cons.mp hnd with ⟨ha, ht⟩
    rw [List.foldl_cons]
    by_cases hr : r = a
    · subst hr
      rw [foldl_annotateRow_val_notMem db store t _ r c ha,
        if_pos (List.mem_cons_self r t)]
    · rw [ih _ ht]
      by_cases hrt : r ∈ t
      · rw [if_pos hrt, if_pos (List.mem_cons_of_mem _ hrt)]
        exact annotateRow_val_congr db store _ _ r r c
          (annotateRow_val_other db store s a r 20 hr)
          (annotateRow_val_other db store s a r c hr)
      · rw [if_neg hrt, if_neg (by simp [hr, hrt]),
          annotateRow_val_other db store s a r c hr]

theorem foldl_annotateRow_red (db : List (String × String))
    (store : Option (List (String × String))) (rows : List Nat) (s : Sheet)
    (r c : Nat) (hnd : rows.Nodup) :
    (rows.foldl (annotateRow db store) s).red r c =
      if r ∈ rows then (annotateRow db store s r).red r c else s.red r c := by
  induction rows generalizing s with
  | nil => simp
  | cons a t ih =>
    rcases List.nodup_cons.mp hnd with ⟨ha, ht⟩
    rw [List.foldl_cons]
    by_cases hr : r = a
    · subst hr
      rw [foldl_annotateRow_red_notMem db store t _ r c ha,
        if_pos (List.mem_cons_self r t)]
    · rw [ih _ ht]
      by_cases hrt : r ∈ t
      · rw [if_pos hrt, if_pos (List.mem_cons_of_mem _ hrt)]
        exact annotateRow_red_congr db store _ _ r r c
          (annotateRow_val_other db store s a r 9 hr)
          (annotateRow_val_other db store s a r 7 hr)
          (annotateRow_red_other db store s a r c hr)
      · rw [if_neg hrt, if_neg (by simp [hr, hrt]),
          annotateRow_red_other db store s a r c hr]

theorem foldl_annotateRow_maxRow (db : List (String × String))
    (store : Option (List (String × String))) (rows : List Nat) (s : Sheet) :
    (rows.foldl (annotateRow db store) s).maxRow = s.maxRow := by
  induction rows generalizing s with
  | nil => rfl
  | cons a t ih => rw [List.foldl_cons, ih, annotateRow_maxRow]

theorem foldl_annotateRow_maxCol (db : List (String × String))
    (store : Option (List (String × String))) (rows : List Nat) (s : Sheet) :
    (rows.foldl (annotateRow db store) s).maxCol = s.maxCol := by
  induction rows generalizing s with
  | nil => rfl
  | cons a t ih => rw [List.foldl_cons, ih, annotateRow_maxCol]

theorem foldl_annotateRow_images (db : List (String × String))
    (store : Option (List (String × String))) (rows : List Nat) (s : Sheet) :
    (rows.foldl (annotateRow db store) s).images = s.images := by
  induction rows generalizing s with
  | nil => rfl
  | cons a t ih => rw [List.foldl_cons, ih, annotateRow_images]

theorem annotateSheet_val (db : List (String × String))
    (store : Option (List (String × String))) (s : Sheet) (r c : Nat) :
    (annotateSheet db store s).val r c =
      if 2 ≤ r ∧ r ≤ s.maxRow then (annotateRow db store s r).val r c
      else s.val r c := by
  unfold annotateSheet
  rw [foldl_annotateRow_val db store _ s r c (rowRange_nodup s)]
  by_cases h : r ∈ rowRange s
  · rw [if_pos h, if_pos ((mem_rowRange s r).mp h)]
  · rw [if_neg h, if_neg (fun hh => h ((mem_rowRange s r).mpr hh))]

theorem annotateSheet_red (db : List (String × String))
    (store : Option (List (String × String))) (s : Sheet) (r c : Nat) :
    (annotateSheet db store s).red r c =
      if 2 ≤ r ∧ r ≤ s.maxRow then (annotateRow db store s r).red r c
      else s.red r c := by
  unfold annotateSheet
  rw [foldl_annotateRow_red db store _ s r c (rowRange_nodup s)]
  by_cases h : r ∈ rowRange s
  · rw [if_pos h, if_pos ((mem_rowRange s r).mp h)]
  · rw [if_neg h, if_neg (fun hh => h ((mem_rowRange s r).mpr hh))]

theorem annotateSheet_val_ne22 (db : List (String × String))
    (store : Option (List (String × String))) (s : Sheet) (r c : Nat)
    (h : c ≠ 22) :
    (annotateSheet db store s).val r c = s.val r c := by
  rw [annotateSheet_val]
  split
  · exact annotateRow_val_ne22 db store s r r c h
  · rfl

theorem annotateSheet_maxRow (db : List (String × String))
    (store : Option (List (String × String))) (s : Sheet) :
    (annotateSheet db store s).maxRow = s.maxRow :=
  foldl_annotateRow_maxRow db store (rowRange s) s

theorem annotateSheet_maxCol (db : List (String × String))
    (store : Option (List (String × String))) (s : Sheet) :
    (annotateSheet db store s).maxCol = s.maxCol :=
  foldl_annotateRow_maxCol db store (rowRange s) s

theorem annotateSheet_images (db : List (String × String))
    (store : Option (List (String × String))) (s : Sheet) :
    (annotateSheet db store s).images = s.images :=
  foldl_annotateRow_images db store (rowRange s) s

theorem foldl_clear_val (rows : List Nat) (s : Sheet) (r c : Nat) :
    (rows.foldl (fun sh row => setVal sh row 8 none) s).val r c =
      if r ∈ rows ∧ c = 8 then none else s.val r c := by
  induction rows generalizing s with
  | nil => simp
  | cons a t ih =>
    rw [List.foldl_cons, ih]
    by_cases hc : c = 8
    · subst hc
      by_cases hrt : r ∈ t
      · simp [hrt]
      · by_cases hra : r = a
        · subst hra
          simp [hrt, setVal_val]
        · simp [hrt, hra, setVal_val]
    · simp [hc, setVal_val]

theorem foldl_clear_red (rows : List Nat) (s : Sheet) :
    (rows.foldl (fun sh row => setVal sh row 8 none) s).red = s.red := by
  induction rows generalizing s with
  | nil => rfl
  | cons a t ih => rw [List.foldl_cons, ih, setVal_red]

theorem foldl_clear_maxRow (rows : List Nat) (s : Sheet) :
    (rows.foldl (fun sh row => setVal sh row 8 none) s).maxRow = s.maxRow := by
  induction rows generalizing s with
  | nil => rfl
  | cons a t ih => rw [List.foldl_cons, ih, setVal_maxRow]

theorem foldl_clear_maxCol (rows : List Nat) (s : Sheet) :
    (rows.foldl (fun sh row => setVal sh row 8 none) s).maxCol = s.maxCol := by
  induction rows generalizing s with
  | nil => rfl
  | cons a t ih => rw [List.foldl_cons, ih, setVal_maxCol]

theorem foldl_clear_images (rows : List Nat) (s : Sheet) :
    (rows.foldl (fun sh row => setVal sh row 8 none) s).images = s.images := by
  induction rows generalizing s with
  | nil => rfl
  | cons a t ih => rw [List.foldl_cons, ih, setVal_images]

theorem clearCol8_val (s : Sheet) (r c : Nat) :
    (clearCol8 s).val r c =
      if 2 ≤ r ∧ r ≤ s.maxRow ∧ c = 8 then none else s.val r c := by
  unfold clearCol8
  rw [foldl_clear_val]
  by_cases h : r ∈ rowRange s
  · have h2 := (mem_rowRange s r).mp h
    by_cases hc : c = 8
    · rw [if_pos ⟨h, hc⟩, if_pos ⟨h2.1, h2.2, hc⟩]
    · rw [if_neg (fun hh => hc hh.2), if_neg (fun hh => hc hh.2.2)]
  · rw [if_neg (fun hh => h hh.1),
      if_neg (fun hh => h ((mem_rowRange s r).mpr ⟨hh.1, hh.2.1⟩))]

theorem clearCol8_red (s : Sheet) : (clearCol8 s).red = s.red :=
  foldl_clear_red (rowRange s) s

theorem clearCol8_maxRow (s : Sheet) : (clearCol8 s).maxRow = s.maxRow :=
  foldl_clear_maxRow (rowRange s) s

theorem clearCol8_maxCol (s : Sheet) : (clearCol8 s).maxCol = s.maxCol :=
  foldl_clear_maxCol (rowRange s) s

theorem clearCol8_images (s : Sheet) : (clearCol8 s).images = s.images :=
  foldl_clear_images (rowRange s) s

theorem embedStep_images (paths : List (Nat × String)) (disk : List String)
    (sh : Sheet) (row : Nat) :
    (embedStep paths disk sh row).images =
      if embedCond paths disk row then sh.images ++ [(row, 8)] else sh.images := by
  unfold embedStep embedCond
  cases hl : paths.lookup row with
  | none => simp
  | some p =>
    by_cases hm : p ∈ disk
    · simp [hm, addImage]
    · simp [hm]

theorem embedStep_val (paths : List (Nat × String)) (disk : List String)
    (sh : Sheet) (row : Nat) :
    (embedStep paths disk sh row).val = sh.val := by
  unfold embedStep
  cases paths.lookup row with
  | none => rfl
  | some p => dsimp only; split <;> rfl

theorem embedStep_red (paths : List (Nat × String)) (disk : List String)
    (sh : Sheet) (row : Nat) :
    (embedStep paths disk sh row).red = sh.red := by
  unfold embedStep
  cases paths.lookup row with
  | none => rfl
  | some p => dsimp only; split <;> rfl

theorem embedStep_maxRow (paths : List (Nat × String)) (disk : List String)
    (sh : Sheet) (row : Nat) :
    (embedStep paths disk sh row).maxRow = sh.maxRow := by
  unfold embedStep
  cases paths.lookup row with
  | none => rfl
  | some p => dsimp only; split <;> rfl

theorem embedImages_images (paths : List (Nat × String)) (disk : List String)
    (rows : List Nat) (s : Sheet) :
    (embedImages paths disk rows s).images =
      s.images ++ (rows.filter (embedCond paths disk)).map (fun row => (row, 8)) := by
  induction rows generalizing s with
  | nil => simp [embedImages]
  | cons a t ih =>
    unfold embedImages at ih ⊢
    rw [List.foldl_cons, ih, embedStep_images]
    by_cases hc : embedCond paths disk a = true
    · rw [if_pos hc, List.filter_cons_of_pos hc, List.map_cons, List.append_assoc]
      rfl
    · have hf : embedCond paths disk a = false := by
        cases hx : embedCond paths disk a
        · rfl
        · exact absurd hx hc
      rw [if_neg hc, List.filter_cons_of_neg (by simp [hf])]

theorem embedImages_val (paths : List (Nat × String)) (disk : List String)
    (rows : List Nat) (s : Sheet) :
    (embedImages paths disk rows s).val = s.val := by
  induction rows generalizing s with
  | nil => rfl
  | cons a t ih =>
    unfold embedImages at ih ⊢
    rw [List.foldl_cons, ih, embedStep_val]

theorem embedImages_red (paths : List (Nat × String)) (disk : List String)
    (rows : List Nat) (s : Sheet) :
    (embedImages paths disk rows s).red = s.red := by
  induction rows generalizing s with
  | nil => rfl
  | cons a t ih =>
    unfold embedImages at ih ⊢
    rw [List.foldl_cons, ih, embedStep_red]

theorem embedImages_maxRow (paths : List (Nat × String)) (disk : List String)
    (rows : List Nat) (s : Sheet) :
    (embedImages paths disk rows s).maxRow = s.maxRow := by
  induction rows generalizing s with
  | nil => rfl
  | cons a t ih =>
    unfold embedImages at ih ⊢
    rw [List.foldl_cons, ih, embedStep_maxRow]

theorem lookup_mem {l : List (String × String)} {k v : String}
    (h : l.lookup k = some v) : (k, v) ∈ l := by
  induction l with
  | nil => simp [List.lookup] at h
  | cons x t ih =>
    rw [List.lookup] at h
    cases hk : (k == x.1) with
    | true =>
      simp only [hk] at h
      cases x with
      | mk a b =>
        have hka : k = a := by simpa using hk
        cases h
        exact hka ▸ List.mem_cons_self _ _
    | false =>
      simp only [hk] at h
      exact List.mem_cons_of_mem _ (ih h)

theorem lookup_none_of_not_mem {l : List (Nat × String)} {k : Nat}
    (h : k ∉ l.map (fun e => e.1)) : l.lookup k = none := by
  induction l with
  | nil => rfl
  | cons x t ih =>
    rw [List.lookup]
    cases hk : (k == x.1) with
    | true =>
      exact absurd (List.mem_map.mpr ⟨x, List.mem_cons_self x t, ((by simpa using hk : k = x.1)).symm⟩)
        h
    | false =>
      exact ih (fun hm => h (List.mem_cons_of_mem _ hm))

theorem save_temp_image_disk_mono (st : St) (id f : String) (h : f ∈ st.disk) :
    f ∈ (save_temp_image st id).2.disk := by
  unfold save_temp_image
  dsimp only
  split
  · exact h
  · exact List.mem_append_left _ h

theorem save_temp_image_mem_disk (st : St) (id : String) :
    (save_temp_image st id).1 ∈ (save_temp_image st id).2.disk := by
  unfold save_temp_image
  dsimp only
  split
  · assumption
  · exact List.mem_append_right _ (List.mem_singleton.mpr rfl)

theorem fetchImages_disk_mono (env : Env) (urls : List (String × Nat)) (st : St)
    (f : String) (h : f ∈ st.disk) : f ∈ (fetchImages env urls st).2.disk := by
  induction urls generalizing st with
  | nil => exact h
  | cons e t ih =>
    obtain ⟨url, row⟩ := e
    show f ∈ (fetchImages env ((url, row) :: t) st).2.disk
    rw [fetchImages]
    cases hd : env.download url with
    | none => exact ih st h
    | some b =>
      dsimp only
      cases hr : env.resize b with
      | none => exact ih st h
      | some c =>
        dsimp only
        exact ih _ (save_temp_image_disk_mono st _ f h)

theorem fetchImages_paths_rows (env : Env) (urls : List (String × Nat)) (st : St) :
    ∀ q ∈ (fetchImages env urls st).1, q.1 ∈ urls.map (fun e => e.2) := by
  induction urls generalizing st with
  | nil => intro q hq; simp [fetchImages] at hq
  | cons e t ih =>
    obtain ⟨url, row⟩ := e
    intro q hq
    rw [fetchImages] at hq
    cases hd : env.download url with
    | none =>
      rw [hd] at hq
      exact List.mem_cons_of_mem _ (ih st q hq)
    | some b =>
      rw [hd] at hq
      dsimp only at hq
      cases hr : env.resize b with
      | none =>
        rw [hr] at hq
        exact List.mem_cons_of_mem _ (ih st q hq)
      | some c =>
        rw [hr] at hq
        dsimp only at hq
        rcases List.mem_cons.mp hq with h1 | h2
        · subst h1
          exact List.mem_cons_self _ _
        · exact List.mem_cons_of_mem _ (ih _ q h2)

theorem embedCond_cons_ne (r0 : Nat) (p : String) (rest : List (Nat × String))
    (disk : List String) (row : Nat) (h : row ≠ r0) :
    embedCond ((r0, p) :: rest) disk row = embedCond rest disk row := by
  unfold embedCond
  rw [List.lookup]
  have hb : (row == (r0, p).1) = false := by simpa using h
  rw [hb]

theorem fetchImages_embedCond (env : Env) (urls : List (String × Nat)) (st : St)
    (row : Nat) (hnd : (urls.map (fun e => e.2)).Nodup) :
    (embedCond (fetchImages env urls st).1 (fetchImages env urls st).2.disk row = true ↔
      ∃ u, (u, row) ∈ urls ∧ fetchSuccess env u = true) := by
  induction urls generalizing st with
  | nil => simp [fetchImages, embedCond, List.lookup]
  | cons e t ih =>
    obtain ⟨url, r0⟩ := e
    rw [List.map_cons] at hnd
    rcases List.nodup_cons.mp hnd with ⟨hr0, hndt⟩
    rw [fetchImages]
    cases hd : env.download url with
    | none =>
      dsimp only
      rw [ih st hndt]
      constructor
      · rintro ⟨u, hu, hs⟩
        exact ⟨u, List.mem_cons_of_mem _ hu, hs⟩
      · rintro ⟨u, hu, hs⟩
        rcases List.mem_cons.mp hu with h1 | h2
        · cases h1
          rw [fetchSuccess, hd] at hs
          simp at hs
        · exact ⟨u, h2, hs⟩
    | some b =>
      dsimp only
      cases hr : env.resize b with
      | none =>
        dsimp only
        rw [ih st hndt]
        constructor
        · rintro ⟨u, hu, hs⟩
          exact ⟨u, List.mem_cons_of_mem _ hu, hs⟩
        · rintro ⟨u, hu, hs⟩
          rcases List.mem_cons.mp hu with h1 | h2
          · cases h1
            rw [fetchSuccess, hd] at hs
            simp [hr] at hs
          · exact ⟨u, h2, hs⟩
      | some c =>
        dsimp only
        by_cases hrow : row = r0
        · subst hrow
          constructor
          · intro _
            refine ⟨url, List.mem_cons_self _ _, ?_⟩
            rw [fetchSuccess, hd]
            simp [hr]
          · intro _
            unfold embedCond
            rw [List.lookup]
            simp only [beq_self_eq_true]
            have hp : (save_temp_image st (toString row)).1 ∈
                (fetchImages env t
                  { (save_temp_image st (toString row)).2 with
                    tempFiles := (save_temp_image st (toString row)).2.tempFiles ++
                      [(save_temp_image st (toString row)).1] }).2.disk := by
              apply fetchImages_disk_mono
              exact save_temp_image_mem_disk st _
            simpa using hp
        · rw [embedCond_cons_ne r0 _ _ _ row hrow]
          rw [ih _ hndt]
          constructor
          · rintro ⟨u, hu, hs⟩
            exact ⟨u, List.mem_cons_of_mem _ hu, hs⟩
          · rintro ⟨u, hu, hs⟩
            rcases List.mem_cons.mp hu with h1 | h2
            · cases h1
              exact absurd rfl hrow
            · exact ⟨u, h2, hs⟩

theorem map_snd_filterMap (l : List Nat) (p : Nat → Bool) (g : Nat → String × Nat)
    (hg : ∀ row, (g row).2 = row) :
    (l.filterMap (fun row => if p row then some (g row) else none)).map
        (fun e => e.2) = l.filter p := by
  induction l with
  | nil => rfl
  | cons a t ih =>
    by_cases h : p a = true
    · simp [h, ih, hg a]
    · simp [h, ih]

theorem urlRows_map_snd (s : Sheet) :
    (urlRows s).map (fun e => e.2) =
      (rowRange s).filter (fun row => validUrlCell (s.val row 8)) := by
  unfold urlRows
  exact map_snd_filterMap (rowRange s) _
    (fun row => (stripCell (s.val row 8), row)) (fun _ => rfl)

theorem urlRows_snd_nodup (s : Sheet) : ((urlRows s).map (fun e => e.2)).Nodup := by
  rw [urlRows_map_snd]
  exact (rowRange_nodup s).filter _

theorem pair_fst_unique {l : List (String × Nat)} {e : String × Nat} {u : String}
    (hnd : (l.map (fun x => x.2)).Nodup) (he : e ∈ l) (hu : (u, e.2) ∈ l) :
    u = e.1 := by
  induction l with
  | nil => cases he
  | cons a t ih =>
    rw [List.map_cons] at hnd
    rcases List.nodup_cons.mp hnd with ⟨ha, hndt⟩
    rcases List.mem_cons.mp he with h1 | h2
    · subst h1
      rcases List.mem_cons.mp hu with hh1 | hh2
      · rw [Prod.ext_iff] at hh1
        simpa using hh1.1
      · exact absurd (List.mem_map.mpr ⟨(u, e.2), hh2, rfl⟩) ha
    · rcases List.mem_cons.mp hu with hh1 | hh2
      · exfalso
        apply ha
        have : e.2 = a.2 := by
          have := congrArg Prod.snd hh1
          simpa using this
        exact this ▸ List.mem_map.mpr ⟨e, h2, rfl⟩
      · exact ih hndt h2 hh2

theorem processSheet_val_ne8 (env : Env) (db : List (String × String)) (s : Sheet)
    (st : St) (r c : Nat) (hc : c ≠ 8) :
    (processSheet env db s st).1.val r c = (annotateSheet db env.store s).val r c := by
  unfold processSheet
  dsimp only
  split
  · rfl
  · rw [embedImages_val, clearCol8_val,
      if_neg (fun hh => hc hh.2.2)]

theorem processSheet_red (env : Env) (db : List (String × String)) (s : Sheet)
    (st : St) :
    (processSheet env db s st).1.red = (annotateSheet db env.store s).red := by
  unfold processSheet
  dsimp only
  split
  · rfl
  · rw [embedImages_red, clearCol8_red]

/-- C9: in whole-sheet mode, a sheet in which no column-8 cell passes the
URL test is returned right after formatting and annotation: every row's
column-8 value is unchanged (the clearing pass is skipped), no image is
embedded, and the run state (temp files, disk) is untouched. -/
theorem processSheet_no_url_frame (env : Env) (db : List (String × String))
    (s : Sheet) (st : St)
    (h : ∀ r, 2 ≤ r → r ≤ s.maxRow → validUrlCell (s.val r 8) = false) :
    (∀ r, (processSheet env db s st).1.val r 8 = s.val r 8)
    ∧ (processSheet env db s st).1.images = s.images
    ∧ (processSheet env db s st).2 = st := by
  have hs1 : ∀ r c, c ≠ 22 → (annotateSheet db env.store s).val r c = s.val r c :=
    fun r c hcc => annotateSheet_val_ne22 db env.store s r c hcc
  have hurls : urlRows (annotateSheet db env.store s) = [] := by
    unfold urlRows
    rw [List.filterMap_eq_nil_iff]
    intro a ha
    have hmem := (mem_rowRange _ a).mp ha
    rw [annotateSheet_maxRow] at hmem
    rw [if_neg]
    rw [hs1 a 8 (by omega), h a hmem.1 hmem.2]
    simp
  have hempty : (urlRows (annotateSheet db env.store s)).isEmpty = true := by
    rw [hurls]; rfl
  unfold processSheet
  dsimp only
  rw [if_pos hempty]
  exact ⟨fun r => hs1 r 8 (by omega), annotateSheet_images db env.store s, rfl⟩

/-- C1 (amended): in whole-sheet mode, for a processed sheet that contains
at least one valid URL in column 8, processing clears the column-8 text of
every data row to `None`, and appends an embedded image anchored at
column 8 of exactly those URL rows whose download and normalisation both
succeeded.  Per-URL failures are encoded as `none` results of the fetch
oracles, so no failure escapes the (total) processing function. -/
theorem processSheet_clear_and_embed (env : Env) (db : List (String × String))
    (s : Sheet) (st : St)
    (h : ∃ r, 2 ≤ r ∧ r ≤ s.maxRow ∧ validUrlCell (s.val r 8) = true) :
    (∀ r, 2 ≤ r → r ≤ s.maxRow → (processSheet env db s st).1.val r 8 = none)
    ∧ (processSheet env db s st).1.images =
        s.images ++
          ((urlRows (annotateSheet db env.store s)).filter
              (fun e => fetchSuccess env e.1)).map (fun e => (e.2, 8)) := by
  set s1 := annotateSheet db env.store s with hs1def
  have hval8 : ∀ r, s1.val r 8 = s.val r 8 :=
    fun r => annotateSheet_val_ne22 db env.store s r 8 (by omega)
  have hmaxRow : s1.maxRow = s.maxRow := annotateSheet_maxRow db env.store s
  obtain ⟨r0, hr0a, hr0b, hr0v⟩ := h
  have hmem : (stripCell (s1.val r0 8), r0) ∈ urlRows s1 := by
    unfold urlRows
    refine List.mem_filterMap.mpr ⟨r0, ?_, ?_⟩
    · rw [mem_rowRange, hmaxRow]
      exact ⟨hr0a, hr0b⟩
    · rw [hval8, hr0v]
      simp
  have hne : urlRows s1 ≠ [] := fun hnil => by
    rw [hnil] at hmem
    cases hmem
  have hempty : (urlRows s1).isEmpty = false := by
    cases hi : (urlRows s1).isEmpty
    · rfl
    · exact absurd (List.isEmpty_iff.mp hi) hne
  constructor
  · intro r h2 hr
    unfold processSheet
    dsimp only
    rw [← hs1def, hempty]
    simp only [Bool.false_eq_true, if_false]
    rw [embedImages_val, clearCol8_val, if_pos ⟨h2, by rw [hmaxRow]; exact hr, rfl⟩]
  · unfold processSheet
    dsimp only
    rw [← hs1def, hempty]
    simp only [Bool.false_eq_true, if_false]
    rw [embedImages_images, clearCol8_images, annotateSheet_images]
    congr 1
    have hnd := urlRows_snd_nodup s1
    have hpt : ∀ e ∈ urlRows s1,
        embedCond (fetchImages env (urlRows s1) st).1
          (fetchImages env (urlRows s1) st).2.disk e.2 = fetchSuccess env e.1 := by
      intro e he
      have hiff := fetchImages_embedCond env (urlRows s1) st e.2 hnd
      cases hsucc : fetchSuccess env e.1 with
      | true => exact hiff.mpr ⟨e.1, by simpa using he, hsucc⟩
      | false =>
        cases hcnd : embedCond (fetchImages env (urlRows s1) st).1
            (fetchImages env (urlRows s1) st).2.disk e.2 with
        | false => rfl
        | true =>
          obtain ⟨u, hu, hus⟩ := hiff.mp hcnd
          rw [pair_fst_unique hnd he hu] at hus
          rw [hus] at hsucc
          cases hsucc
    rw [List.filter_map, List.map_map]
    have hpt' : ∀ e ∈ urlRows s1,
        (embedCond (fetchImages env (urlRows s1) st).1
          (fetchImages env (urlRows s1) st).2.disk ∘ fun e => e.2) e =
        (fun e => fetchSuccess env e.1) e := hpt
    rw [List.filter_congr hpt']
    exact List.map_congr_left (fun e _ => rfl)

/-- C1 counterexample: on a processed sheet with no valid URL in column 8
(the text `"hello"` at row 2), `_process_sheet` returns early and column 8
is NOT cleared, refuting the claim's universal form over all processed
sheets. -/
theorem processSheet_clear_counterexample :
    ¬ (∀ r, 2 ≤ r → r ≤ cexSheet.maxRow →
        (processSheet cexEnv (load_staff_database cexEnv.store) cexSheet
          cexSt).1.val r 8 = none) := by
  intro hcl
  exact absurd (hcl 2 (by decide) (by decide)) (by decide)

/-- C5: after processing, the column-9 cell of a data row carries the red
fill exactly when its value is non-empty and the trimmed text is shorter
than 100 characters (given the cell was not red in the input). -/
theorem content_length_flag (env : Env) (db : List (String × String)) (s : Sheet)
    (st : St) (r : Nat) (h2 : 2 ≤ r) (hr : r ≤ s.maxRow) (h0 : s.red r 9 = false) :
    ((processSheet env db s st).1.red r 9 = true ↔
      ∃ t, s.val r 9 = some t ∧ t ≠ "" ∧ (stripList t.data).length < 100) := by
  have hred := congrFun (congrFun (processSheet_red env db s st) r) 9
  rw [hred, annotateSheet_red, if_pos ⟨h2, hr⟩, annotateRow_red,
    if_pos (⟨rfl, rfl⟩ : r = r ∧ (9 : Nat) = 9), h0, Bool.false_or]
  unfold contentFlagCond
  cases hv : s.val r 9 with
  | none => simp [truthy]
  | some t =>
    by_cases ht : t.isEmpty = true
    · have hte : t = "" := (String.isEmpty_iff t).mp ht
      subst hte
      simp [truthy]
      decide
    · have htne : t ≠ "" := fun he => ht (by rw [he]; rfl)
      have htr : truthy (some t) = true := by
        unfold truthy
        simp [ht]
      rw [htr, Bool.true_and]
      unfold check_content_length
      dsimp only
      rw [if_neg ht]
      simp [htne]

/-- C4: after processing, the column-22 value of a data row is the roster
suffix looked up under the concatenated Chinese characters of the
column-20 text when that text is truthy, the extraction is non-empty and
the lookup hits; otherwise it is unchanged.  The roster is the non-empty
caller-supplied mapping with well-formed (non-empty) id suffixes. -/
theorem match_staff_id_eq (name : Option String) (db : List (String × String))
    (store : Option (List (String × String))) (hdbe : db.isEmpty = false) :
    match_staff_id name db store =
      (if truthy name = true then
        (if (extract_chinese_name name).isEmpty = true then none
         else db.lookup (extract_chinese_name name))
      else none) := by
  unfold match_staff_id
  cases htr : truthy name with
  | false => simp
  | true => simp [hdbe]

theorem reviewer_id_fill (env : Env) (db : List (String × String)) (s : Sheet)
    (st : St) (r : Nat) (h2 : 2 ≤ r) (hr : r ≤ s.maxRow)
    (hdb : db ≠ []) (hvals : ∀ p ∈ db, p.2 ≠ "") :
    (processSheet env db s st).1.val r 22 =
      (if truthy (s.val r 20) = true ∧ extract_chinese_name (s.val r 20) ≠ "" then
        match db.lookup (extract_chinese_name (s.val r 20)) with
        | some id => some id
        | none => s.val r 22
      else s.val r 22) := by
  have hdbe : db.isEmpty = false := by
    cases db with
    | nil => exact absurd rfl hdb
    | cons a t => rfl
  rw [processSheet_val_ne8 env db s st r 22 (by omega), annotateSheet_val,
    if_pos ⟨h2, hr⟩, annotateRow_val, match_staff_id_eq _ db env.store hdbe]
  cases htr : truthy (s.val r 20) with
  | false => simp
  | true =>
    by_cases hext : (extract_chinese_name (s.val r 20)).isEmpty = true
    · have heq : extract_chinese_name (s.val r 20) = "" :=
        (String.isEmpty_iff _).mp hext
      simp [hext, heq]
      rw [if_pos (by decide)]
    · have hne : extract_chinese_name (s.val r 20) ≠ "" :=
        fun he => hext (by rw [he]; rfl)
      cases hl : db.lookup (extract_chinese_name (s.val r 20)) with
      | none => simp [hext, hl, hne]
      | some id =>
        have hide : id.isEmpty = false := by
          cases hie : id.isEmpty with
          | false => rfl
          | true =>
            exact absurd ((String.isEmpty_iff id).mp hie)
              (hvals _ (lookup_mem hl))
        simp [hext, hl, hide, hne]

/-! ## Lemmas: the top-level run -/

/-- C7: a run that loads its workbook takes the split path exactly when
the resolved mode is `1` and the data-row count (`max_row - 1`) exceeds
50; in every other case the workbook is processed whole and saved as the
single output file `base_converted.xlsx`. -/
theorem mode_decision (env : Env) (deleteOk : String → Bool) (base : String)
    (modeArg : Option Nat) (st0 : St) (wb : List Sheet) (active : Sheet)
    (hload : loadWorkbook env.primary env.fallback = Except.ok wb)
    (hactive : wb.head? = some active)
    (hsave : ∀ p, env.saveOk p = true) :
    ((resolveMode env modeArg = 1 ∧ active.maxRow - 1 > 50) →
      (process env deleteOk base modeArg st0).result =
        (processSplit env base active { st0 with tempFiles := [] }).1)
    ∧ (¬(resolveMode env modeArg = 1 ∧ active.maxRow - 1 > 50) →
      (process env deleteOk base modeArg st0).result =
        Except.ok [base ++ "_converted.xlsx"]) := by
  have hbody : (process env deleteOk base modeArg st0).result =
      (runBody env base (resolveMode env modeArg) { st0 with tempFiles := [] }).1 := rfl
  rw [hbody]
  unfold runBody
  rw [hload]
  dsimp only
  rw [hactive]
  dsimp only
  constructor
  · intro hcond
    rw [if_pos hcond]
  · intro hcond
    rw [if_neg hcond]
    rw [hsave (base ++ "_converted.xlsx")]
    rfl

/-- C8: when the standard workbook load fails, exactly one retry with the
compatibility strategy is made and its outcome is final (fourth conjunct);
if it also fails the run surfaces that load error, writes no output file,
and records no transient files — no sheet was ever obtained, so nothing
was mutated. -/
theorem load_failure_aborts (env : Env) (deleteOk : String → Bool) (base : String)
    (modeArg : Option Nat) (st0 : St) (e1 e2 : String)
    (h1 : env.primary = Except.error e1) (h2 : env.fallback = Except.error e2) :
    (process env deleteOk base modeArg st0).result = Except.error e2
    ∧ (process env deleteOk base modeArg st0).st.saved = st0.saved
    ∧ (process env deleteOk base modeArg st0).recorded = []
    ∧ (∀ fb, loadWorkbook env.primary fb = fb) := by
  have hlw : loadWorkbook env.primary env.fallback = Except.error e2 := by
    unfold loadWorkbook
    rw [h1, h2]
  refine ⟨?_, ?_, ?_, ?_⟩
  · show (runBody env base (resolveMode env modeArg) { st0 with tempFiles := [] }).1 =
      Except.error e2
    unfold runBody
    rw [hlw]
  · show (cleanup deleteOk
      (runBody env base (resolveMode env modeArg) { st0 with tempFiles := [] }).2).saved =
        st0.saved
    unfold runBody
    rw [hlw]
    rfl
  · show (runBody env base (resolveMode env modeArg) { st0 with tempFiles := [] }).2.tempFiles = []
    unfold runBody
    rw [hlw]
  · intro fb
    unfold loadWorkbook
    rw [h1]

/-! ## Lemmas: resource cleanup (C2) -/

theorem save_temp_image_disk_nodup (st : St) (id : String) (h : st.disk.Nodup) :
    (save_temp_image st id).2.disk.Nodup := by
  unfold save_temp_image
  dsimp only
  split
  · exact h
  · rename_i hnm
    simp [List.nodup_append, h, hnm]

theorem fetchImages_disk_nodup (env : Env) (urls : List (String × Nat)) (st : St)
    (h : st.disk.Nodup) : (fetchImages env urls st).2.disk.Nodup := by
  induction urls generalizing st with
  | nil => exact h
  | cons e t ih =>
    obtain ⟨url, row⟩ := e
    rw [fetchImages]
    cases hd : env.download url with
    | none => exact ih st h
    | some b =>
      dsimp only
      cases hr : env.resize b with
      | none => exact ih st h
      | some c =>
        dsimp only
        exact ih _ (save_temp_image_disk_nodup st _ h)

theorem splitFetch_disk_nodup (env : Env) (entries : List (Nat × String)) (st : St)
    (h : st.disk.Nodup) : (splitFetch env entries st).2.disk.Nodup := by
  induction entries generalizing st with
  | nil => exact h
  | cons e t ih =>
    obtain ⟨rowIndex, url⟩ := e
    rw [splitFetch]
    cases hd : env.download url with
    | none => exact ih st h
    | some b =>
      dsimp only
      cases hr : env.resize b with
      | none => exact ih st h
      | some c =>
        dsimp only
        exact ih _ (save_temp_image_disk_nodup st _ h)

theorem processSheet_disk_nodup (env : Env) (db : List (String × String))
    (s : Sheet) (st : St) (h : st.disk.Nodup) :
    (processSheet env db s st).2.disk.Nodup := by
  unfold processSheet
  dsimp only
  split
  · exact h
  · exact fetchImages_disk_nodup env _ st h

theorem processSheets_disk_nodup (env : Env) (db : List (String × String))
    (sheets : List Sheet) (st : St) (h : st.disk.Nodup) :
    (processSheets env db sheets st).2.disk.Nodup := by
  induction sheets generalizing st with
  | nil => exact h
  | cons s t ih =>
    rw [processSheets]
    exact ih _ (processSheet_disk_nodup env db s st h)

theorem splitLoop_disk (env : Env) (db : List (String × String)) (src : Sheet)
    (base : String) (total : Nat) (cache : List (Nat × String))
    (chunks : List (Nat × List (List (Option String)))) (st : St) :
    (splitLoop env db src base total cache chunks st).2.disk = st.disk := by
  induction chunks generalizing st with
  | nil => rfl
  | cons e t ih =>
    obtain ⟨idx, chunk⟩ := e
    rw [splitLoop]
    dsimp only
    split
    · split
      · dsimp only
        exact ih _
      · dsimp only
        exact ih _
    · rfl

theorem splitLoop_tempFiles (env : Env) (db : List (String × String)) (src : Sheet)
    (base : String) (total : Nat) (cache : List (Nat × String))
    (chunks : List (Nat × List (List (Option String)))) (st : St) :
    (splitLoop env db src base total cache chunks st).2.tempFiles = st.tempFiles := by
  induction chunks generalizing st with
  | nil => rfl
  | cons e t ih =>
    obtain ⟨idx, chunk⟩ := e
    rw [splitLoop]
    dsimp only
    split
    · split
      · dsimp only
        exact ih _
      · dsimp only
        exact ih _
    · rfl

theorem runBody_disk_nodup (env : Env) (base : String) (mode : Nat) (st : St)
    (h : st.disk.Nodup) : (runBody env base mode st).2.disk.Nodup := by
  unfold runBody
  cases loadWorkbook env.primary env.fallback with
  | error e => exact h
  | ok sheets =>
    dsimp only
    cases sheets.head? with
    | none => exact h
    | some active =>
      dsimp only
      split
      · unfold processSplit
        dsimp only
        rw [splitLoop_disk]
        exact splitFetch_disk_nodup env _ st h
      · split
        · exact processSheets_disk_nodup env _ sheets st h
        · exact processSheets_disk_nodup env _ sheets st h

theorem cleanupFiles_subset (deleteOk : String → Bool) (temps : List String)
    (disk : List String) (f : String)
    (h : f ∈ cleanupFiles deleteOk temps disk) : f ∈ disk := by
  induction temps generalizing disk with
  | nil => exact h
  | cons g t ih =>
    unfold cleanupFiles at h
    rw [List.foldl_cons] at h
    by_cases hg : g ∈ disk ∧ deleteOk g = true
    · rw [if_pos hg] at h
      exact List.mem_of_mem_erase (ih (disk.erase g) h)
    · rw [if_neg hg] at h
      exact ih disk h

theorem cleanupFiles_not_mem (deleteOk : String → Bool) (temps : List String)
    (disk : List String) (f : String) (hnd : disk.Nodup) (hf : f ∈ temps)
    (hdel : deleteOk f = true) : f ∉ cleanupFiles deleteOk temps disk := by
  induction temps generalizing disk with
  | nil => cases hf
  | cons g t ih =>
    unfold cleanupFiles
    rw [List.foldl_cons]
    rcases List.mem_cons.mp hf with h1 | h2
    · subst h1
      by_cases hfd : f ∈ disk ∧ deleteOk f = true
      · rw [if_pos hfd]
        intro hmem
        exact hnd.not_mem_erase (cleanupFiles_subset deleteOk t _ f hmem)
      · rw [if_neg hfd]
        have hfnd : f ∉ disk := fun hin => hfd ⟨hin, hdel⟩
        intro hmem
        exact hfnd (cleanupFiles_subset deleteOk t _ f hmem)
    · by_cases hg : g ∈ disk ∧ deleteOk g = true
      · rw [if_pos hg]
        exact ih (disk.erase g) (hnd.erase g) h2
      · rw [if_neg hg]
        exact ih disk hnd h2

/-- C2: every run — whatever its outcome, including a load error or a save
failure re-raised out of the body — ends by running `_cleanup`: every
transient file recorded during the run whose deletion succeeds is gone
from disk afterwards (regardless of other files' deletion failures, which
are merely logged), the recorded list is cleared, and deletion failures
never change the run's reported outcome. -/
theorem cleanup_always_runs (env : Env) (deleteOk : String → Bool) (base : String)
    (modeArg : Option Nat) (st0 : St) (hnd : st0.disk.Nodup) :
    (∀ f ∈ (process env deleteOk base modeArg st0).recorded,
        deleteOk f = true → f ∉ (process env deleteOk base modeArg st0).st.disk)
    ∧ (process env deleteOk base modeArg st0).st.tempFiles = []
    ∧ (∀ d2 : String → Bool,
        (process env deleteOk base modeArg st0).result =
          (process env d2 base modeArg st0).result) := by
  refine ⟨?_, rfl, fun d2 => rfl⟩
  intro f hf hdel
  have hbnd : (runBody env base (resolveMode env modeArg)
      { st0 with tempFiles := [] }).2.disk.Nodup :=
    runBody_disk_nodup env base _ _ hnd
  exact cleanupFiles_not_mem deleteOk _ _ f hbnd hf hdel

/-! ## Lemmas: split mode (C3) -/

theorem embedChunkStep_val (cache : List (Nat × String)) (disk : List String)
    (start : Nat) (sh : Sheet) (offset : Nat) :
    (embedChunkStep cache disk start sh offset).val = sh.val := by
  unfold embedChunkStep
  cases cache.lookup (start + offset) with
  | none => rfl
  | some p => dsimp only; split <;> rfl

theorem embedChunkStep_maxRow (cache : List (Nat × String)) (disk : List String)
    (start : Nat) (sh : Sheet) (offset : Nat) :
    (embedChunkStep cache disk start sh offset).maxRow = sh.maxRow := by
  unfold embedChunkStep
  cases cache.lookup (start + offset) with
  | none => rfl
  | some p => dsimp only; split <;> rfl

theorem foldl_embedChunkStep_val (cache : List (Nat × String)) (disk : List String)
    (start : Nat) (offsets : List Nat) (s : Sheet) :
    (offsets.foldl (embedChunkStep cache disk start) s).val = s.val := by
  induction offsets generalizing s with
  | nil => rfl
  | cons a t ih => rw [List.foldl_cons, ih, embedChunkStep_val]

theorem foldl_embedChunkStep_maxRow (cache : List (Nat × String))
    (disk : List String) (start : Nat) (offsets : List Nat) (s : Sheet) :
    (offsets.foldl (embedChunkStep cache disk start) s).maxRow = s.maxRow := by
  induction offsets generalizing s with
  | nil => rfl
  | cons a t ih => rw [List.foldl_cons, ih, embedChunkStep_maxRow]

theorem embedChunkImages_val (cache : List (Nat × String)) (disk : List String)
    (start chunkLen : Nat) (s : Sheet) :
    (embedChunkImages cache disk start chunkLen s).val = s.val :=
  foldl_embedChunkStep_val cache disk start (List.range chunkLen) s

theorem embedChunkImages_maxRow (cache : List (Nat × String)) (disk : List String)
    (start chunkLen : Nat) (s : Sheet) :
    (embedChunkImages cache disk start chunkLen s).maxRow = s.maxRow :=
  foldl_embedChunkStep_maxRow cache disk start (List.range chunkLen) s

theorem mkChunkSheet_maxRow (src : Sheet) (chunk : List (List (Option String))) :
    (mkChunkSheet src chunk).maxRow = chunk.length + 1 := rfl

theorem mkChunkSheet_header (src : Sheet) (chunk : List (List (Option String)))
    (c : Nat) (h1 : 1 ≤ c) (h2 : c ≤ src.maxCol) :
    (mkChunkSheet src chunk).val 1 c = src.val 1 c := by
  unfold mkChunkSheet
  dsimp only
  rw [if_pos ⟨rfl, h1, h2⟩]
  unfold headerOf
  rw [List.getElem?_map]
  have hidx : (List.range' 1 src.maxCol)[c - 1]? = some (1 + (c - 1)) := by
    have := List.getElem?_range' 1 1 (m := c - 1) (n := src.maxCol) (by omega)
    simpa using this
  rw [hidx]
  have : 1 + (c - 1) = c := by omega
  rw [this]
  rfl

theorem splitOutSheet_header (db : List (String × String))
    (store : Option (List (String × String))) (src : Sheet)
    (cache : List (Nat × String)) (disk : List String) (idx : Nat)
    (chunk : List (List (Option String))) (c : Nat)
    (h1 : 1 ≤ c) (h2 : c ≤ src.maxCol) :
    (splitOutSheet db store src cache disk idx chunk).val 1 c = src.val 1 c := by
  unfold splitOutSheet embedChunkImages
  rw [foldl_embedChunkStep_val, clearCol8_val, if_neg (fun hh => by omega),
    annotateSheet_val, if_neg (fun hh => by omega)]
  exact mkChunkSheet_header src chunk c h1 h2

theorem splitOutSheet_maxRow (db : List (String × String))
    (store : Option (List (String × String))) (src : Sheet)
    (cache : List (Nat × String)) (disk : List String) (idx : Nat)
    (chunk : List (List (Option String))) :
    (splitOutSheet db store src cache disk idx chunk).maxRow = chunk.length + 1 := by
  unfold splitOutSheet embedChunkImages
  rw [foldl_embedChunkStep_maxRow, clearCol8_maxRow, annotateSheet_maxRow,
    mkChunkSheet_maxRow]

theorem chunksOfAux_nil (n fuel : Nat) : chunksOfAux n fuel ([] : List α) = [] := by
  cases fuel <;> rfl

theorem chunksOfAux_succ_cons (n fuel : Nat) (a : α) (t : List α) :
    chunksOfAux n (fuel + 1) (a :: t) =
      (a :: t).take n :: chunksOfAux n fuel ((a :: t).drop n) := rfl

theorem chunksOfAux_eq (n : Nat) (hn : 0 < n) :
    ∀ (fuel : Nat) (l : List α), l.length ≤ fuel →
      chunksOfAux n fuel l = chunksOf n l := by
  intro fuel
  induction fuel using Nat.strong_induction_on with
  | _ fuel ih =>
    intro l hl
    cases fuel with
    | zero =>
      have hnil : l = [] := List.length_eq_zero.mp (Nat.le_zero.mp hl)
      subst hnil
      rfl
    | succ f =>
      cases l with
      | nil => rw [chunksOfAux_nil]; rfl
      | cons a t =>
        rw [chunksOfAux_succ_cons]
        show _ = chunksOfAux n (a :: t).length (a :: t)
        rw [List.length_cons, chunksOfAux_succ_cons]
        congr 1
        have hl' : t.length ≤ f := by simpa using hl
        have hdrop : ((a :: t).drop n).length ≤ t.length := by
          rw [List.length_drop]
          simp only [List.length_cons]
          omega
        rw [ih f (Nat.lt_succ_self f) _ (le_trans hdrop hl'),
          ih t.length (Nat.lt_succ_of_le hl') _ hdrop]

theorem chunksOf_ne_nil_eq (n : Nat) (hn : 0 < n) (l : List α) (hl : l ≠ []) :
    chunksOf n l = l.take n :: chunksOf n (l.drop n) := by
  cases l with
  | nil => exact absurd rfl hl
  | cons a t =>
    show chunksOfAux n (a :: t).length (a :: t) = _
    rw [List.length_cons, chunksOfAux_succ_cons]
    congr 1
    apply chunksOfAux_eq n hn
    rw [List.length_drop]
    simp only [List.length_cons]
    omega

theorem chunksOf_flatten (n : Nat) (hn : 0 < n) (l : List α) :
    (chunksOf n l).flatten = l := by
  have haux : ∀ (k : Nat) (l : List α), l.length ≤ k → (chunksOf n l).flatten = l := by
    intro k
    induction k with
    | zero =>
      intro l hl
      have hnil : l = [] := List.length_eq_zero.mp (Nat.le_zero.mp hl)
      subst hnil
      rfl
    | succ k ih =>
      intro l hl
      by_cases hne : l = []
      · subst hne; rfl
      · rw [chunksOf_ne_nil_eq n hn l hne, List.flatten_cons, ih _ ?_,
          List.take_append_drop]
        rw [List.length_drop]
        have : l.length ≠ 0 := fun h0 => hne (List.length_eq_zero.mp h0)
        omega
  exact haux l.length l le_rfl

theorem chunksOf_length_50 (l : List α) :
    (chunksOf 50 l).length = (l.length + 49) / 50 := by
  have haux : ∀ (k : Nat) (l : List α), l.length ≤ k →
      (chunksOf 50 l).length = (l.length + 49) / 50 := by
    intro k
    induction k with
    | zero =>
      intro l hl
      have hnil : l = [] := List.length_eq_zero.mp (Nat.le_zero.mp hl)
      subst hnil
      simp [chunksOf, chunksOfAux]
    | succ k ih =>
      intro l hl
      by_cases hne : l = []
      · subst hne
        simp [chunksOf, chunksOfAux]
      · rw [chunksOf_ne_nil_eq 50 (by omega) l hne, List.length_cons, ih _ ?_,
          List.length_drop]
        · have : l.length ≠ 0 := fun h0 => hne (List.length_eq_zero.mp h0)
          omega
        · rw [List.length_drop]
          have : l.length ≠ 0 := fun h0 => hne (List.length_eq_zero.mp h0)
          omega
  exact haux l.length l le_rfl

theorem chunksOf_getElem_50 (l : List α) (k : Nat)
    (hk : k < (chunksOf 50 l).length) :
    (chunksOf 50 l)[k]? = some ((l.drop (50 * k)).take 50) := by
  have haux : ∀ (fuel : Nat) (l : List α) (k : Nat), l.length ≤ fuel →
      k < (chunksOf 50 l).length →
      (chunksOf 50 l)[k]? = some ((l.drop (50 * k)).take 50) := by
    intro fuel
    induction fuel with
    | zero =>
      intro l k hl hk
      have hnil : l = [] := List.length_eq_zero.mp (Nat.le_zero.mp hl)
      subst hnil
      simp [chunksOf, chunksOfAux] at hk
    | succ fuel ih =>
      intro l k hl hk
      by_cases hne : l = []
      · subst hne
        simp [chunksOf, chunksOfAux] at hk
      · have hcons := chunksOf_ne_nil_eq 50 (by omega) l hne
        rw [hcons] at hk
        rw [hcons]
        cases k with
        | zero => simp
        | succ k =>
          rw [List.getElem?_cons_succ]
          rw [List.length_cons] at hk
          have hlen : (l.drop 50).length ≤ fuel := by
            rw [List.length_drop]
            have : l.length ≠ 0 := fun h0 => hne (List.length_eq_zero.mp h0)
            omega
          have hk2 : k < (chunksOf 50 (l.drop 50)).length :=
            Nat.lt_of_succ_lt_succ hk
          rw [ih (l.drop 50) k hlen hk2, List.drop_drop]
          have harith : 50 + 50 * k = 50 * (k + 1) := by ring
          rw [harith]
  exact haux l.length l k le_rfl hk

theorem chunksOf_map_length_120 (l : List α) (h : l.length = 120) :
    (chunksOf 50 l).map List.length = [50, 50, 20] := by
  have hne1 : l ≠ [] := fun he => by rw [he] at h; cases h
  have hd1 : (l.drop 50).length = 70 := by rw [List.length_drop, h]
  have hne2 : l.drop 50 ≠ [] := fun he => by rw [he] at hd1; cases hd1
  have hd2 : ((l.drop 50).drop 50).length = 20 := by rw [List.length_drop, hd1]
  have hne3 : (l.drop 50).drop 50 ≠ [] := fun he => by rw [he] at hd2; cases hd2
  have hd3 : (((l.drop 50).drop 50).drop 50).length = 0 := by
    rw [List.length_drop, hd2]
  have hnil : ((l.drop 50).drop 50).drop 50 = [] := List.length_eq_zero.mp hd3
  rw [chunksOf_ne_nil_eq 50 (by omega) l hne1,
    chunksOf_ne_nil_eq 50 (by omega) _ hne2,
    chunksOf_ne_nil_eq 50 (by omega) _ hne3,
    hnil]
  have hc : chunksOf 50 ([] : List α) = [] := rfl
  rw [hc]
  simp [List.length_take, h, hd1, hd2]

theorem splitFetch_saved (env : Env) (entries : List (Nat × String)) (st : St) :
    (splitFetch env entries st).2.saved = st.saved := by
  induction entries generalizing st with
  | nil => rfl
  | cons e t ih =>
    obtain ⟨rowIndex, url⟩ := e
    rw [splitFetch]
    cases hd : env.download url with
    | none => exact ih st
    | some b =>
      dsimp only
      cases hr : env.resize b with
      | none => exact ih st
      | some c =>
        dsimp only
        exact ih _

theorem splitLoop_spec (env : Env) (db : List (String × String)) (src : Sheet)
    (base : String) (total : Nat) (cache : List (Nat × String))
    (hsave : ∀ p, env.saveOk p = true) :
    ∀ (chunks : List (Nat × List (List (Option String)))) (st : St),
      splitLoop env db src base total cache chunks st =
        (Except.ok (chunks.map (fun e => splitPathName base total e.1)),
         { st with saved := st.saved ++ chunks.map (fun e =>
             (splitPathName base total e.1,
              [splitOutSheet db env.store src cache st.disk e.1 e.2])) }) := by
  intro chunks
  induction chunks with
  | nil =>
    intro st
    rw [splitLoop]
    cases st
    simp
  | cons e t ih =>
    intro st
    obtain ⟨idx, chunk⟩ := e
    rw [splitLoop]
    dsimp only
    rw [if_pos (hsave _), ih]
    dsimp only
    cases st
    simp [List.append_assoc]

theorem processSplit_spec (env : Env) (base : String) (src : Sheet) (st0 : St)
    (hsave : ∀ p, env.saveOk p = true) :
    processSplit env base src st0 =
      (Except.ok ((chunksOf 50 (dataRows src)).enum.map
          (fun e => splitPathName base (dataRows src).length e.1)),
       { (splitFetch env (splitUrlEntries (dataRows src)) st0).2 with
         saved := (splitFetch env (splitUrlEntries (dataRows src)) st0).2.saved ++
           (chunksOf 50 (dataRows src)).enum.map (fun e =>
             (splitPathName base (dataRows src).length e.1,
              [splitOutSheet (load_staff_database env.store) env.store src
                (splitFetch env (splitUrlEntries (dataRows src)) st0).1
                (splitFetch env (splitUrlEntries (dataRows src)) st0).2.disk
                e.1 e.2])) }) := by
  unfold processSplit
  dsimp only
  rw [splitLoop_spec env _ src base _ _ hsave]

/-- C3: in split mode with `T > 0` data rows and successful saves, the run
produces exactly `⌈T / 50⌉` output files; the `k`-th chunk is the slice of
data rows `50·k .. 50·k+49` of the source in their original order (their
concatenation is the source data-row list, so `T = 120` yields chunks of
50, 50 and 20 rows); each output workbook holds the fully processed sheet
of its chunk, whose row 1 carries the source header values and whose data
region has exactly the chunk's rows. -/
theorem split_partitioning (env : Env) (base : String) (src : Sheet) (st0 : St)
    (hT : 0 < (dataRows src).length) (hsave : ∀ p, env.saveOk p = true) :
    (∃ paths, (processSplit env base src st0).1 = Except.ok paths ∧
      paths.length = ((dataRows src).length + 49) / 50)
    ∧ (chunksOf 50 (dataRows src)).flatten = dataRows src
    ∧ (∀ k, k < (chunksOf 50 (dataRows src)).length →
        (chunksOf 50 (dataRows src))[k]? =
          some (((dataRows src).drop (50 * k)).take 50))
    ∧ ((dataRows src).length = 120 →
        (chunksOf 50 (dataRows src)).map List.length = [50, 50, 20])
    ∧ (processSplit env base src st0).2.saved =
        st0.saved ++ (chunksOf 50 (dataRows src)).enum.map (fun e =>
          (splitPathName base (dataRows src).length e.1,
           [splitOutSheet (load_staff_database env.store) env.store src
              (splitFetch env (splitUrlEntries (dataRows src)) st0).1
              (splitFetch env (splitUrlEntries (dataRows src)) st0).2.disk
              e.1 e.2]))
    ∧ (∀ idx chunk,
        (∀ c, 1 ≤ c → c ≤ src.maxCol →
          (splitOutSheet (load_staff_database env.store) env.store src
            (splitFetch env (splitUrlEntries (dataRows src)) st0).1
            (splitFetch env (splitUrlEntries (dataRows src)) st0).2.disk
            idx chunk).val 1 c = src.val 1 c)
        ∧ (splitOutSheet (load_staff_database env.store) env.store src
            (splitFetch env (splitUrlEntries (dataRows src)) st0).1
            (splitFetch env (splitUrlEntries (dataRows src)) st0).2.disk
            idx chunk).maxRow = chunk.length + 1) := by
  refine ⟨?_, chunksOf_flatten 50 (by omega) _,
    fun k hk => chunksOf_getElem_50 _ k hk,
    fun h120 => chunksOf_map_length_120 _ h120, ?_, ?_⟩
  · refine ⟨_, congrArg Prod.fst (processSplit_spec env base src st0 hsave), ?_⟩
    rw [List.length_map, List.enum_length]
    exact chunksOf_length_50 (dataRows src)
  · have hs := congrArg (fun q => q.2.saved) (processSplit_spec env base src st0 hsave)
    dsimp only at hs
    rw [hs, splitFetch_saved]
  · intro idx chunk
    exact ⟨fun c hc1 hc2 => splitOutSheet_header _ _ src _ _ idx chunk c hc1 hc2,
      splitOutSheet_maxRow _ _ src _ _ idx chunk⟩

theorem chz_eps : Chz pEps (fun t => t = []) := by
  intro s r
  constructor
  · intro h
    rcases List.mem_singleton.mp h with rfl
    exact ⟨[], rfl, rfl⟩
  · rintro ⟨t, hs, rfl⟩
    rw [hs]
    exact List.mem_singleton.mpr rfl

theorem chz_cls (p : Char → Bool) :
    Chz (pCls p) (fun t => ∃ c, t = [c] ∧ p c = true) := by
  intro s r
  cases s with
  | nil =>
    simp only [pCls]
    constructor
    · intro h; cases h
    · rintro ⟨t, hs, c, rfl, hc⟩
      cases hs
  | cons c cs =>
    simp only [pCls]
    by_cases hc : p c = true
    · rw [if_pos hc]
      constructor
      · intro h
        rcases List.mem_singleton.mp h with rfl
        exact ⟨[c], rfl, c, rfl, hc⟩
      · rintro ⟨t, hs, c', rfl, hc'⟩
        rcases List.cons.injEq .. ▸ hs with ⟨h1, h2⟩
        subst h1
        subst h2
        exact List.mem_singleton.mpr rfl
    · rw [if_neg hc]
      constructor
      · intro h; cases h
      · rintro ⟨t, hs, c', rfl, hc'⟩
        rcases List.cons.injEq .. ▸ hs with ⟨h1, h2⟩
        subst h1
        exact absurd hc' hc

theorem chz_lit (lit : List Char) : Chz (pLit lit) (fun t => t = lit) := by
  induction lit with
  | nil =>
    intro s r
    simp only [pLit]
    constructor
    · intro h
      rcases List.mem_singleton.mp h with rfl
      exact ⟨[], rfl, rfl⟩
    · rintro ⟨t, hs, rfl⟩
      rw [hs]
      exact List.mem_singleton.mpr rfl
  | cons e es ih =>
    intro s r
    cases s with
    | nil =>
      simp only [pLit]
      constructor
      · intro h; cases h
      · rintro ⟨t, hs, rfl⟩
        cases hs
    | cons c cs =>
      simp only [pLit]
      by_cases hc : c = e
      · rw [if_pos hc]
        subst hc
        rw [ih cs r]
        constructor
        · rintro ⟨t, rfl, rfl⟩
          exact ⟨c :: t, rfl, rfl⟩
        · rintro ⟨t, hs, rfl⟩
          rcases List.cons.injEq .. ▸ hs with ⟨h1, h2⟩
          exact ⟨es, h2, rfl⟩
      · rw [if_neg hc]
        constructor
        · intro h; cases h
        · rintro ⟨t, hs, rfl⟩
          rcases List.cons.injEq .. ▸ hs with ⟨h1, h2⟩
          exact absurd h1 hc

theorem chz_litCI (lit : List Char) :
    Chz (pLitCI lit) (fun t => t.map Char.toLower = lit) := by
  induction lit with
  | nil =>
    intro s r
    simp only [pLitCI]
    constructor
    · intro h
      rcases List.mem_singleton.mp h with rfl
      exact ⟨[], rfl, rfl⟩
    · rintro ⟨t, hs, ht⟩
      rcases List.map_eq_nil.mp ht with rfl
      rw [hs]
      exact List.mem_singleton.mpr rfl
  | cons e es ih =>
    intro s r
    cases s with
    | nil =>
      simp only [pLitCI]
      constructor
      · intro h; cases h
      · rintro ⟨t, hs, ht⟩
        cases t with
        | nil => cases ht
        | cons a t' => cases hs
    | cons c cs =>
      simp only [pLitCI]
      by_cases hc : c.toLower = e
      · rw [if_pos hc]
        rw [ih cs r]
        constructor
        · rintro ⟨t, rfl, ht⟩
          exact ⟨c :: t, rfl, by rw [List.map_cons, ht, hc]⟩
        · rintro ⟨t, hs, ht⟩
          cases t with
          | nil => cases ht
          | cons a t' =>
            rcases List.cons.injEq .. ▸ hs with ⟨h1, h2⟩
            subst h1
            rw [List.map_cons] at ht
            exact ⟨t', h2, by injection ht⟩
      · rw [if_neg hc]
        constructor
        · intro h; cases h
        · rintro ⟨t, hs, ht⟩
          cases t with
          | nil => cases ht
          | cons a t' =>
            rcases List.cons.injEq .. ▸ hs with ⟨h1, h2⟩
            subst h1
            rw [List.map_cons] at ht
            exact absurd (by injection ht) hc

theorem chz_seq {m1 m2 : Matcher} {Q1 Q2 : List Char → Prop}
    (h1 : Chz m1 Q1) (h2 : Chz m2 Q2) :
    Chz (pSeq m1 m2) (fun t => ∃ t1 t2, t = t1 ++ t2 ∧ Q1 t1 ∧ Q2 t2) := by
  intro s r
  unfold pSeq
  rw [List.mem_flatMap]
  constructor
  · rintro ⟨mid, hmid, hr⟩
    rcases (h1 s mid).mp hmid with ⟨t1, rfl, hq1⟩
    rcases (h2 mid r).mp hr with ⟨t2, rfl, hq2⟩
    exact ⟨t1 ++ t2, by rw [List.append_assoc], ⟨t1, t2, rfl, hq1, hq2⟩⟩
  · rintro ⟨t, hs, t1, t2, rfl, hq1, hq2⟩
    refine ⟨t2 ++ r, ?_, ?_⟩
    · apply (h1 s (t2 ++ r)).mpr
      exact ⟨t1, by rw [hs, List.append_assoc], hq1⟩
    · exact (h2 (t2 ++ r) r).mpr ⟨t2, rfl, hq2⟩

theorem chz_alt {m1 m2 : Matcher} {Q1 Q2 : List Char → Prop}
    (h1 : Chz m1 Q1) (h2 : Chz m2 Q2) :
    Chz (pAlt m1 m2) (fun t => Q1 t ∨ Q2 t) := by
  intro s r
  unfold pAlt
  rw [List.mem_append]
  constructor
  · rintro (h | h)
    · rcases (h1 s r).mp h with ⟨t, hs, hq⟩
      exact ⟨t, hs, Or.inl hq⟩
    · rcases (h2 s r).mp h with ⟨t, hs, hq⟩
      exact ⟨t, hs, Or.inr hq⟩
  · rintro ⟨t, hs, hq | hq⟩
    · exact Or.inl ((h1 s r).mpr ⟨t, hs, hq⟩)
    · exact Or.inr ((h2 s r).mpr ⟨t, hs, hq⟩)

theorem chz_opt {m : Matcher} {Q : List Char → Prop} (h : Chz m Q) :
    Chz (pOpt m) (fun t => t = [] ∨ Q t) := by
  intro s r
  unfold pOpt
  rw [List.mem_cons]
  constructor
  · rintro (rfl | hm)
    · exact ⟨[], rfl, Or.inl rfl⟩
    · rcases (h s r).mp hm with ⟨t, hs, hq⟩
      exact ⟨t, hs, Or.inr hq⟩
  · rintro ⟨t, hs, rfl | hq⟩
    · exact Or.inl hs.symm
    · exact Or.inr ((h s r).mpr ⟨t, hs, hq⟩)

theorem chz_repMax (p : Char → Bool) (n : Nat) :
    Chz (pRepMax p n) (fun t => t.length ≤ n ∧ ∀ c ∈ t, p c = true) := by
  induction n with
  | zero =>
    intro s r
    constructor
    · intro h
      rcases (chz_eps s r).mp h with ⟨t, hs, rfl⟩
      exact ⟨[], hs, by simp⟩
    · rintro ⟨t, hs, hlen, hall⟩
      rcases List.length_eq_zero.mp (Nat.le_zero.mp hlen) with rfl
      exact (chz_eps s r).mpr ⟨[], hs, rfl⟩
  | succ n ih =>
    intro s r
    show r ∈ s :: (pCls p s).flatMap (pRepMax p n) ↔ _
    rw [List.mem_cons, List.mem_flatMap]
    constructor
    · rintro (rfl | ⟨mid, hmid, hr⟩)
      · exact ⟨[], rfl, by simp⟩
      · rcases (chz_cls p s mid).mp hmid with ⟨t1, rfl, c, rfl, hc⟩
        rcases (ih mid r).mp hr with ⟨t2, rfl, hlen, hall⟩
        refine ⟨c :: t2, rfl, by simpa using hlen, ?_⟩
        intro x hx
        rcases List.mem_cons.mp hx with rfl | hx'
        · exact hc
        · exact hall x hx'
    · rintro ⟨t, hs, hlen, hall⟩
      cases t with
      | nil => exact Or.inl hs.symm
      | cons c t' =>
        refine Or.inr ⟨t' ++ r, ?_, ?_⟩
        · apply (chz_cls p s (t' ++ r)).mpr
          exact ⟨[c], by simpa using hs, c, rfl, hall c (List.mem_cons_self c t')⟩
        · apply (ih (t' ++ r) r).mpr
          exact ⟨t', rfl, by simpa using hlen,
            fun x hx => hall x (List.mem_cons_of_mem _ hx)⟩

theorem chz_plusCls (p : Char → Bool) :
    Chz (pPlusCls p) (fun t => t ≠ [] ∧ ∀ c ∈ t, p c = true) := by
  intro s
  induction s with
  | nil =>
    intro r
    simp only [pPlusCls]
    constructor
    · intro h; cases h
    · rintro ⟨t, hs, hne, hall⟩
      cases t with
      | nil => exact absurd rfl hne
      | cons a t' => cases hs
  | cons c cs ih =>
    intro r
    simp only [pPlusCls]
    by_cases hc : p c = true
    · rw [if_pos hc]
      rw [List.mem_cons, ih r]
      constructor
      · rintro (rfl | ⟨t, rfl, hne, hall⟩)
        · exact ⟨[c], rfl, by simp, fun x hx => by
            rcases List.mem_singleton.mp hx with rfl; exact hc⟩
        · refine ⟨c :: t, rfl, by simp, ?_⟩
          intro x hx
          rcases List.mem_cons.mp hx with rfl | hx'
          · exact hc
          · exact hall x hx'
      · rintro ⟨t, hs, hne, hall⟩
        cases t with
        | nil => exact absurd rfl hne
        | cons a t' =>
          rcases List.cons.injEq .. ▸ hs with ⟨h1, h2⟩
          subst h1
          cases t' with
          | nil => exact Or.inl h2.symm
          | cons b t'' =>
            refine Or.inr ⟨b :: t'', h2, by simp, ?_⟩
            intro x hx
            exact hall x (List.mem_cons_of_mem _ hx)
    · rw [if_neg hc]
      constructor
      · intro h; cases h
      · rintro ⟨t, hs, hne, hall⟩
        cases t with
        | nil => exact absurd rfl hne
        | cons a t' =>
          rcases List.cons.injEq .. ▸ hs with ⟨h1, h2⟩
          exact absurd (hall a (List.mem_cons_self a t')) (h1 ▸ hc)

theorem pManyAux_sound {m : Matcher} {Q : List Char → Prop} (hm : Chz m Q)
    (hne : ∀ t, Q t → t ≠ []) :
    ∀ (fuel : Nat) (s r : List Char), s.length ≤ fuel →
      r ∈ pManyAux m fuel s → ∃ t, s = t ++ r ∧ Blocks Q t := by
  intro fuel
  induction fuel with
  | zero =>
    intro s r hl h
    rcases List.mem_singleton.mp h with rfl
    exact ⟨[], rfl, Blocks.nil⟩
  | succ fuel ih =>
    intro s r hl h
    rcases List.mem_cons.mp h with rfl | h'
    · exact ⟨[], rfl, Blocks.nil⟩
    · rcases List.mem_flatMap.mp h' with ⟨mid, hmid, hr⟩
      rcases (hm s mid).mp hmid with ⟨t1, rfl, hq1⟩
      have ht1 : t1 ≠ [] := hne t1 hq1
      have hmidlen : mid.length ≤ fuel := by
        rw [List.length_append] at hl
        cases t1 with
        | nil => exact absurd rfl ht1
        | cons a t1' =>
          simp only [List.length_cons] at hl
          omega
      rcases ih mid r hmidlen hr with ⟨t2, rfl, hb⟩
      exact ⟨t1 ++ t2, by rw [List.append_assoc], Blocks.cons hq1 hb⟩

theorem pManyAux_complete {m : Matcher} {Q : List Char → Prop} (hm : Chz m Q)
    (hne : ∀ t, Q t → t ≠ []) :
    ∀ {t : List Char}, Blocks Q t → ∀ (fuel : Nat) (r : List Char),
      t.length ≤ fuel → r ∈ pManyAux m fuel (t ++ r) := by
  intro t hb
  induction hb with
  | nil =>
    intro fuel r hl
    cases fuel with
    | zero => exact List.mem_singleton.mpr rfl
    | succ fuel => exact List.mem_cons_self _ _
  | cons hq hbu ih =>
    rename_i t1 u
    intro fuel r hl
    cases fuel with
    | zero =>
      rw [List.length_append] at hl
      have ht1 : t1 = [] := List.length_eq_zero.mp (by omega)
      have hu : u = [] := List.length_eq_zero.mp (by omega)
      subst ht1
      subst hu
      exact List.mem_singleton.mpr rfl
    | succ fuel =>
      apply List.mem_cons_of_mem
      apply List.mem_flatMap.mpr
      refine ⟨u ++ r, ?_, ?_⟩
      · apply (hm ((t1 ++ u) ++ r) (u ++ r)).mpr
        exact ⟨t1, by rw [List.append_assoc], hq⟩
      · apply ih
        rw [List.length_append] at hl
        have ht1 : 0 < t1.length := List.length_pos.mpr (hne t1 hq)
        omega

theorem chz_plusM {m : Matcher} {Q : List Char → Prop} (hm : Chz m Q)
    (hne : ∀ t, Q t → t ≠ []) :
    Chz (pPlusM m) (fun t => ∃ t1 t2, t = t1 ++ t2 ∧ Q t1 ∧ Blocks Q t2) := by
  intro s r
  unfold pPlusM pSeq
  rw [List.mem_flatMap]
  constructor
  · rintro ⟨mid, hmid, hr⟩
    rcases (hm s mid).mp hmid with ⟨t1, rfl, hq1⟩
    rcases pManyAux_sound hm hne mid.length mid r le_rfl hr with ⟨t2, rfl, hb⟩
    exact ⟨t1 ++ t2, by rw [List.append_assoc], t1, t2, rfl, hq1, hb⟩
  · rintro ⟨t, hs, t1, t2, rfl, hq1, hb⟩
    refine ⟨t2 ++ r, ?_, ?_⟩
    · apply (hm s (t2 ++ r)).mpr
      exact ⟨t1, by rw [hs, List.append_assoc], hq1⟩
    · exact pManyAux_complete hm hne hb (t2 ++ r).length r (by simp)

/-! Component-level characterizations of the embedded regex. -/

theorem chz_congr {m : Matcher} {Q Q' : List Char → Prop} (h : Chz m Q)
    (hq : ∀ t, Q t ↔ Q' t) : Chz m Q' := fun s r =>
  (h s r).trans (exists_congr fun t => and_congr_right fun _ => hq t)

theorem map_eq_singleton {f : Char → Char} {l : List Char} {x : Char}
    (h : l.map f = [x]) : ∃ c, l = [c] ∧ f c = x := by
  cases l with
  | nil => cases h
  | cons a t =>
    cases t with
    | nil =>
      rw [List.map_cons, List.map_nil] at h
      exact ⟨a, rfl, by injection h⟩
    | cons b t' =>
      rw [List.map_cons, List.map_cons] at h
      injection h with h1 h2
      cases h2

theorem chz_scheme :
    Chz schemeM (fun t => ∃ sch, t = sch ++ [':', '/', '/'] ∧ SchemeOk sch) := by
  apply chz_congr (chz_seq (chz_litCI ['h', 't', 't', 'p'])
    (chz_seq (chz_opt (chz_cls (fun c => c.toLower = 's'))) (chz_lit [':', '/', '/'])))
  intro t
  constructor
  · rintro ⟨t1, t23, rfl, h1, t2, t3, rfl, h2, rfl⟩
    refine ⟨t1 ++ t2, by rw [List.append_assoc], ?_⟩
    rcases h2 with rfl | ⟨c, rfl, hc⟩
    · exact Or.inl (by simpa using h1)
    · right
      rw [List.map_append, h1, List.map_cons, List.map_nil]
      have hcs : c.toLower = 's' := by simpa using hc
      rw [hcs]
      rfl
  · rintro ⟨sch, rfl, hsch | hsch⟩
    · exact ⟨sch, [':', '/', '/'], rfl, hsch, [], [':', '/', '/'], rfl, Or.inl rfl, rfl⟩
    · have hlen : sch.length = 5 := by
        have := congrArg List.length hsch
        simpa using this
      refine ⟨sch.take 4, sch.drop 4 ++ [':', '/', '/'],
        by rw [← List.append_assoc, List.take_append_drop], ?_, sch.drop 4,
        [':', '/', '/'], rfl, ?_, rfl⟩
      · rw [List.map_take, hsch]
        rfl
      · right
        have hdrop : (sch.drop 4).map Char.toLower = ['s'] := by
          rw [List.map_drop, hsch]
          rfl
        rcases map_eq_singleton hdrop with ⟨c, hc1, hc2⟩
        exact ⟨c, hc1, by simpa using hc2⟩

theorem chz_label : Chz labelM LabelOk := by
  apply chz_congr (chz_seq (chz_cls isAlnum)
    (chz_opt (chz_seq (chz_repMax isAlnumDash 61) (chz_cls isAlnum))))
  intro t
  constructor
  · rintro ⟨w1, w2, rfl, ⟨c, rfl, hc⟩, hw2⟩
    refine ⟨c, w2, rfl, hc, ?_⟩
    rcases hw2 with rfl | ⟨x1, x2, rfl, ⟨hx1len, hx1all⟩, d, rfl, hd⟩
    · exact Or.inl rfl
    · exact Or.inr ⟨x1, d, rfl, hx1len, hx1all, hd⟩
  · rintro ⟨c, u, rfl, hc, hu⟩
    refine ⟨[c], u, rfl, ⟨c, rfl, hc⟩, ?_⟩
    rcases hu with rfl | ⟨mid, d, rfl, hmidlen, hmidall, hd⟩
    · exact Or.inl rfl
    · exact Or.inr ⟨mid, [d], rfl, ⟨hmidlen, hmidall⟩, d, rfl, hd⟩

theorem chz_labelDot :
    Chz labelDotM (fun u => ∃ lab, u = lab ++ ['.'] ∧ LabelOk lab) := by
  apply chz_congr (chz_seq chz_label (chz_cls (fun c => c = '.')))
  intro t
  constructor
  · rintro ⟨v1, v2, rfl, hv1, c, rfl, hc⟩
    have : c = '.' := by simpa using hc
    subst this
    exact ⟨v1, rfl, hv1⟩
  · rintro ⟨lab, rfl, hlab⟩
    exact ⟨lab, ['.'], rfl, hlab, '.', rfl, by simp⟩

theorem labelDot_ne_nil :
    ∀ t, (∃ lab, t = lab ++ ['.'] ∧ LabelOk lab) → t ≠ [] := by
  rintro t ⟨lab, rfl, _⟩ hnil
  rcases List.append_eq_nil.mp hnil with ⟨_, h2⟩
  cases h2

theorem chz_tld : Chz tldM TldOk := by
  apply chz_congr (chz_seq (chz_cls isAsciiAlpha)
    (chz_seq (chz_cls isAsciiAlpha) (chz_repMax isAsciiAlpha 4)))
  intro t
  constructor
  · rintro ⟨w1, w2, rfl, ⟨c1, rfl, hc1⟩, w3, w4, rfl, ⟨c2, rfl, hc2⟩, hl4, hall⟩
    refine ⟨by simp, by simp; omega, ?_⟩
    intro c hc
    rcases List.mem_cons.mp hc with rfl | hc'
    · exact hc1
    · rcases List.mem_cons.mp hc' with rfl | hc''
      · exact hc2
      · exact hall c hc''
  · rintro ⟨h2, h6, hall⟩
    cases t with
    | nil => cases h2
    | cons c1 t1 =>
      cases t1 with
      | nil => simp at h2
      | cons c2 t2 =>
        refine ⟨[c1], c2 :: t2, rfl, ⟨c1, rfl, hall c1 (by simp)⟩,
          [c2], t2, rfl, ⟨c2, rfl, hall c2 (by simp)⟩, ?_, ?_⟩
        · simp at h6
          omega
        · intro c hc
          exact hall c (by simp [hc])

theorem chz_d13 : Chz d13M DigitRun13 := by
  apply chz_congr (chz_seq (chz_cls isAsciiDigit) (chz_repMax isAsciiDigit 2))
  intro t
  constructor
  · rintro ⟨w1, w2, rfl, ⟨c, rfl, hc⟩, hl, hall⟩
    refine ⟨by simp, by simp; omega, ?_⟩
    intro x hx
    rcases List.mem_cons.mp hx with rfl | hx'
    · exact hc
    · exact hall x hx'
  · rintro ⟨h1, h3, hall⟩
    cases t with
    | nil => cases h1
    | cons c t' =>
      refine ⟨[c], t', rfl, ⟨c, rfl, hall c (by simp)⟩, ?_, ?_⟩
      · simp at h3
        omega
      · intro x hx
        exact hall x (by simp [hx])

theorem blocks_labelDot_iff (u : List Char) :
    Blocks (fun v => ∃ lab, v = lab ++ ['.'] ∧ LabelOk lab) u ↔
      ∃ labels : List (List Char),
        u = (labels.map (fun l => l ++ ['.'])).flatten ∧
        ∀ l ∈ labels, LabelOk l := by
  constructor
  · intro hb
    induction hb with
    | nil => exact ⟨[], rfl, by simp⟩
    | cons hq hbu ih =>
      rcases hq with ⟨lab, rfl, hlab⟩
      rcases ih with ⟨labels, rfl, hall⟩
      refine ⟨lab :: labels, by simp, ?_⟩
      intro l hl
      rcases List.mem_cons.mp hl with rfl | hl'
      · exact hlab
      · exact hall l hl'
  · rintro ⟨labels, rfl, hall⟩
    induction labels with
    | nil => exact Blocks.nil
    | cons lab rest ih =>
      rw [List.map_cons, List.flatten_cons]
      exact Blocks.cons ⟨lab, rfl, hall lab (by simp)⟩
        (ih (fun l hl => hall l (List.mem_cons_of_mem _ hl)))

theorem chz_domain : Chz domainM DomainOk := by
  apply chz_congr (chz_seq (chz_plusM chz_labelDot labelDot_ne_nil)
    (chz_seq chz_tld (chz_opt (chz_cls (fun c => c = '.')))))
  intro t
  constructor
  · rintro ⟨t1, t2, rfl, ⟨u1, u2, rfl, ⟨lab0, rfl, hlab0⟩, hb⟩,
      t3, t4, rfl, htld, ht4⟩
    rcases (blocks_labelDot_iff u2).mp hb with ⟨labels, rfl, hall⟩
    refine ⟨lab0 :: labels, t3, t4, ?_, by simp, ?_, htld, ?_⟩
    · simp [List.append_assoc]
    · intro l hl
      rcases List.mem_cons.mp hl with rfl | hl'
      · exact hlab0
      · exact hall l hl'
    · rcases ht4 with rfl | ⟨c, rfl, hc⟩
      · exact Or.inl rfl
      · exact Or.inr (by simpa using congrArg (fun x => [x]) (by simpa using hc : c = '.'))
  · rintro ⟨labels, tld, tail, rfl, hne, hall, htld, htail⟩
    cases labels with
    | nil => exact absurd rfl hne
    | cons lab0 rest =>
      refine ⟨(lab0 :: rest).map (fun l => l ++ ['.']) |>.flatten, tld ++ tail,
        by rw [List.append_assoc], ?_, tld, tail, rfl, htld, ?_⟩
      · rw [List.map_cons, List.flatten_cons]
        refine ⟨lab0 ++ ['.'], (rest.map (fun l => l ++ ['.'])).flatten, rfl,
          ⟨lab0, rfl, hall lab0 (by simp)⟩, ?_⟩
        exact (blocks_labelDot_iff _).mpr
          ⟨rest, rfl, fun l hl => hall l (List.mem_cons_of_mem _ hl)⟩
      · rcases htail with rfl | rfl
        · exact Or.inl rfl
        · exact Or.inr ⟨'.', rfl, by simp⟩

theorem chz_ipv4 : Chz ipv4M Ipv4Ok := by
  apply chz_congr (chz_seq chz_d13 (chz_seq (chz_cls (fun c => c = '.'))
    (chz_seq chz_d13 (chz_seq (chz_cls (fun c => c = '.'))
      (chz_seq chz_d13 (chz_seq (chz_cls (fun c => c = '.')) chz_d13))))))
  intro t
  constructor
  · rintro ⟨a, r1, rfl, ha, d1, r2, rfl, ⟨c1, rfl, hc1⟩, b, r3, rfl, hb,
      d2, r4, rfl, ⟨c2, rfl, hc2⟩, c, r5, rfl, hc, d3, d, rfl, ⟨c3, rfl, hc3⟩, hd⟩
    have e1 : c1 = '.' := by simpa using hc1
    have e2 : c2 = '.' := by simpa using hc2
    have e3 : c3 = '.' := by simpa using hc3
    subst e1
    subst e2
    subst e3
    exact ⟨a, b, c, d, by simp, ha, hb, hc, hd⟩
  · rintro ⟨a, b, c, d, rfl, ha, hb, hc, hd⟩
    refine ⟨a, _, rfl, ha, ['.'], _, rfl, ⟨'.', rfl, by simp⟩,
      b, _, rfl, hb, ['.'], _, rfl, ⟨'.', rfl, by simp⟩,
      c, _, rfl, hc, ['.'], _, rfl, ⟨'.', rfl, by simp⟩, hd⟩

theorem chz_host : Chz hostM HostOk := by
  apply chz_congr (chz_alt chz_domain
    (chz_alt (chz_litCI ['l', 'o', 'c', 'a', 'l', 'h', 'o', 's', 't']) chz_ipv4))
  intro t
  exact Iff.rfl

theorem chz_port : Chz portM PortOk := by
  apply chz_congr (chz_opt (chz_seq (chz_cls (fun c => c = ':'))
    (chz_plusCls isAsciiDigit)))
  intro t
  constructor
  · rintro (rfl | ⟨u1, u2, rfl, ⟨c, rfl, hc⟩, hne, hall⟩)
    · exact Or.inl rfl
    · have : c = ':' := by simpa using hc
      subst this
      exact Or.inr ⟨u2, rfl, hne, hall⟩
  · rintro (rfl | ⟨d, rfl, hne, hall⟩)
    · exact Or.inl rfl
    · exact Or.inr ⟨[':'], d, rfl, ⟨':', rfl, by simp⟩, hne, hall⟩

theorem chz_path : Chz pathM PathOk := by
  apply chz_congr (chz_alt (chz_opt (chz_cls (fun c => c = '/')))
    (chz_seq (chz_cls (fun c => c = '/' || c = '?'))
      (chz_plusCls (fun c => !isPySpace c))))
  intro t
  constructor
  · rintro ((rfl | ⟨c, rfl, hc⟩) | ⟨u1, u2, rfl, ⟨c, rfl, hc⟩, hne, hall⟩)
    · exact Or.inl rfl
    · have : c = '/' := by simpa using hc
      subst this
      exact Or.inr (Or.inl rfl)
    · refine Or.inr (Or.inr ⟨c, u2, rfl, ?_, hne, ?_⟩)
      · rcases Bool.or_eq_true .. |>.mp hc with h | h
        · exact Or.inl (by simpa using h)
        · exact Or.inr (by simpa using h)
      · intro x hx
        have := hall x hx
        simpa using this
  · rintro (rfl | rfl | ⟨c, u, rfl, hc, hne, hall⟩)
    · exact Or.inl (Or.inl rfl)
    · exact Or.inl (Or.inr ⟨'/', rfl, by simp⟩)
    · refine Or.inr ⟨[c], u, rfl, ⟨c, rfl, ?_⟩, hne, ?_⟩
      · rcases hc with rfl | rfl <;> simp
      · intro x hx
        simpa using hall x hx

theorem chz_full : Chz fullM IsUrlShape := by
  apply chz_congr (chz_seq chz_scheme (chz_seq chz_host (chz_seq chz_port chz_path)))
  intro t
  constructor
  · rintro ⟨t1, t2, rfl, ⟨sch, rfl, hsch⟩, host, t3, rfl, hhost, port, path,
      rfl, hport, hpath⟩
    exact ⟨sch, host, port, path, by simp [List.append_assoc], hsch, hhost,
      hport, hpath⟩
  · rintro ⟨sch, host, port, path, rfl, hsch, hhost, hport, hpath⟩
    exact ⟨sch ++ [':', '/', '/'], host ++ (port ++ path),
      by simp [List.append_assoc], ⟨sch, rfl, hsch⟩, host, port ++ path, rfl,
      hhost, port, path, rfl, hport, hpath⟩

theorem IsUrlShape_nil : ¬ IsUrlShape [] := by
  rintro ⟨sch, host, port, path, heq, _, _, _, _⟩
  have hlen := congrArg List.length heq
  simp [List.length_append] at hlen
  omega

/-- C6: `is_valid_url` returns `true` exactly for the strings whose
stripped text matches `scheme://host[:port][/path]` with scheme `http` or
`https` (case-insensitively), a host that is a domain-with-TLD,
`localhost` or a dotted-quad IPv4, an optional port and an optional
path/query (`IsUrlShape`); empty input is rejected (non-string input is
excluded by typing).  The listed examples evaluate as the claim states. -/
theorem is_valid_url_iff_shape :
    (∀ s : String, is_valid_url s = true ↔ IsUrlShape (stripList s.data))
    ∧ is_valid_url "https://img.example.com/a.jpg" = true
    ∧ is_valid_url "ftp://x.com" = false
    ∧ is_valid_url "" = false
    ∧ is_valid_url "example.com/a.jpg" = false := by
  refine ⟨?_, by decide, by decide, rfl, by decide⟩
  intro s
  unfold is_valid_url
  by_cases he : s.isEmpty = true
  · rw [if_pos he]
    have hse : s = "" := (String.isEmpty_iff s).mp he
    subst hse
    constructor
    · intro h; cases h
    · intro h
      exact absurd h IsUrlShape_nil
  · rw [if_neg he]
    unfold urlRegexAccepts
    rw [decide_eq_true_eq]
    rw [chz_full (stripList s.data) []]
    constructor
    · rintro ⟨t, heq, hshape⟩
      rw [List.append_nil] at heq
      rwa [heq]
    · intro h
      exact ⟨stripList s.data, (List.append_nil _).symm, h⟩

/-! ## Witnesses -/

/-- Witness for the amended C1 at a concrete sheet with one valid URL. -/
theorem processSheet_clear_and_embed_witness :
    (2 ≤ 2 ∧ 2 ≤ wUrlSheet.maxRow ∧ validUrlCell (wUrlSheet.val 2 8) = true)
    ∧ ((∀ r, 2 ≤ r → r ≤ wUrlSheet.maxRow →
          (processSheet wEnv [] wUrlSheet cexSt).1.val r 8 = none)
       ∧ (processSheet wEnv [] wUrlSheet cexSt).1.images =
           wUrlSheet.images ++
             ((urlRows (annotateSheet [] wEnv.store wUrlSheet)).filter
                 (fun e => fetchSuccess wEnv e.1)).map (fun e => (e.2, 8))) :=
  ⟨by decide,
   processSheet_clear_and_embed wEnv [] wUrlSheet cexSt
     ⟨2, by decide, by decide, by decide⟩⟩

/-- Witness for C2 on a concrete run that records a transient file. -/
theorem cleanup_always_runs_witness :
    cexSt.disk.Nodup
    ∧ ((∀ f ∈ (process wEnv (fun _ => true) "b" (some 2) cexSt).recorded,
          (fun (_ : String) => true) f = true →
          f ∉ (process wEnv (fun _ => true) "b" (some 2) cexSt).st.disk)
       ∧ (process wEnv (fun _ => true) "b" (some 2) cexSt).st.tempFiles = []
       ∧ (∀ d2 : String → Bool,
           (process wEnv (fun _ => true) "b" (some 2) cexSt).result =
             (process wEnv d2 "b" (some 2) cexSt).result)) :=
  ⟨List.nodup_nil,
   cleanup_always_runs wEnv (fun _ => true) "b" (some 2) cexSt List.nodup_nil⟩

/-- Witness for C3 at the 120-data-row source of the specification. -/
theorem split_partitioning_witness :
    (0 < (dataRows wSplitSrc).length ∧ ∀ p, wEnv.saveOk p = true)
    ∧ ((∃ paths, (processSplit wEnv "b" wSplitSrc cexSt).1 = Except.ok paths ∧
          paths.length = ((dataRows wSplitSrc).length + 49) / 50)
       ∧ (chunksOf 50 (dataRows wSplitSrc)).flatten = dataRows wSplitSrc
       ∧ (∀ k, k < (chunksOf 50 (dataRows wSplitSrc)).length →
           (chunksOf 50 (dataRows wSplitSrc))[k]? =
             some (((dataRows wSplitSrc).drop (50 * k)).take 50))
       ∧ ((dataRows wSplitSrc).length = 120 →
           (chunksOf 50 (dataRows wSplitSrc)).map List.length = [50, 50, 20])
       ∧ (processSplit wEnv "b" wSplitSrc cexSt).2.saved =
           cexSt.saved ++ (chunksOf 50 (dataRows wSplitSrc)).enum.map (fun e =>
             (splitPathName "b" (dataRows wSplitSrc).length e.1,
              [splitOutSheet (load_staff_database wEnv.store) wEnv.store wSplitSrc
                 (splitFetch wEnv (splitUrlEntries (dataRows wSplitSrc)) cexSt).1
                 (splitFetch wEnv (splitUrlEntries (dataRows wSplitSrc)) cexSt).2.disk
                 e.1 e.2]))
       ∧ (∀ idx chunk,
           (∀ c, 1 ≤ c → c ≤ wSplitSrc.maxCol →
             (splitOutSheet (load_staff_database wEnv.store) wEnv.store wSplitSrc
               (splitFetch wEnv (splitUrlEntries (dataRows wSplitSrc)) cexSt).1
               (splitFetch wEnv (splitUrlEntries (dataRows wSplitSrc)) cexSt).2.disk
               idx chunk).val 1 c = wSplitSrc.val 1 c)
           ∧ (splitOutSheet (load_staff_database wEnv.store) wEnv.store wSplitSrc
               (splitFetch wEnv (splitUrlEntries (dataRows wSplitSrc)) cexSt).1
               (splitFetch wEnv (splitUrlEntries (dataRows wSplitSrc)) cexSt).2.disk
               idx chunk).maxRow = chunk.length + 1)) :=
  ⟨⟨by decide, fun p => rfl⟩,
   split_partitioning wEnv "b" wSplitSrc cexSt (by decide) (fun p => rfl)⟩

/-- Witness for C4 at the roster round-trip scenario. -/
theorem reviewer_id_fill_witness :
    (2 ≤ 2 ∧ 2 ≤ wStaffSheet.maxRow
      ∧ ([("张静", "8525")] : List (String × String)) ≠ []
      ∧ (∀ p ∈ ([("张静", "8525")] : List (String × String)), p.2 ≠ ""))
    ∧ (processSheet wEnv [("张静", "8525")] wStaffSheet cexSt).1.val 2 22 =
        (if truthy (wStaffSheet.val 2 20) = true ∧
            extract_chinese_name (wStaffSheet.val 2 20) ≠ "" then
          match ([("张静", "8525")] : List (String × String)).lookup
              (extract_chinese_name (wStaffSheet.val 2 20)) with
          | some id => some id
          | none => wStaffSheet.val 2 22
        else wStaffSheet.val 2 22) :=
  ⟨⟨by decide, by decide, by decide, by decide⟩,
   reviewer_id_fill wEnv [("张静", "8525")] wStaffSheet cexSt 2
     (by decide) (by decide) (by decide) (by decide)⟩

/-- Witness for C5 at a 99-character column-9 value. -/
theorem content_length_flag_witness :
    (2 ≤ 2 ∧ 2 ≤ wStaffSheet.maxRow ∧ wStaffSheet.red 2 9 = false)
    ∧ ((processSheet wEnv [("张静", "8525")] wStaffSheet cexSt).1.red 2 9 = true ↔
        ∃ t, wStaffSheet.val 2 9 = some t ∧ t ≠ "" ∧
          (stripList t.data).length < 100) :=
  ⟨⟨by decide, by decide, rfl⟩,
   content_length_flag wEnv [("张静", "8525")] wStaffSheet cexSt 2
     (by decide) (by decide) rfl⟩

/-- Witness for C7 at a loaded workbook in whole-sheet mode. -/
theorem mode_decision_witness :
    (loadWorkbook wEnv.primary wEnv.fallback = Except.ok [wUrlSheet]
      ∧ ([wUrlSheet] : List Sheet).head? = some wUrlSheet
      ∧ ∀ p, wEnv.saveOk p = true)
    ∧ (((resolveMode wEnv (some 2) = 1 ∧ wUrlSheet.maxRow - 1 > 50) →
        (process wEnv (fun _ => true) "b" (some 2) cexSt).result =
          (processSplit wEnv "b" wUrlSheet { cexSt with tempFiles := [] }).1)
       ∧ (¬(resolveMode wEnv (some 2) = 1 ∧ wUrlSheet.maxRow - 1 > 50) →
        (process wEnv (fun _ => true) "b" (some 2) cexSt).result =
          Except.ok ["b" ++ "_converted.xlsx"])) :=
  ⟨⟨rfl, rfl, fun p => rfl⟩,
   mode_decision wEnv (fun _ => true) "b" (some 2) cexSt [wUrlSheet] wUrlSheet
     rfl rfl (fun p => rfl)⟩

/-- Witness for C8 at an environment whose both load attempts fail. -/
theorem load_failure_aborts_witness :
    (wFailEnv.primary = Except.error "standard load failed"
      ∧ wFailEnv.fallback = Except.error "compat load failed")
    ∧ ((process wFailEnv (fun _ => true) "b" (some 2) cexSt).result =
        Except.error "compat load failed"
       ∧ (process wFailEnv (fun _ => true) "b" (some 2) cexSt).st.saved =
           cexSt.saved
       ∧ (process wFailEnv (fun _ => true) "b" (some 2) cexSt).recorded = []
       ∧ (∀ fb, loadWorkbook wFailEnv.primary fb = fb)) :=
  ⟨⟨rfl, rfl⟩,
   load_failure_aborts wFailEnv (fun _ => true) "b" (some 2) cexSt
     "standard load failed" "compat load failed" rfl rfl⟩

/-- Witness for C9 at a sheet whose column 8 holds no valid URL. -/
theorem processSheet_no_url_frame_witness :
    (∀ r, 2 ≤ r → r ≤ cexSheet.maxRow → validUrlCell (cexSheet.val r 8) = false)
    ∧ ((∀ r, (processSheet wEnv [] cexSheet cexSt).1.val r 8 = cexSheet.val r 8)
       ∧ (processSheet wEnv [] cexSheet cexSt).1.images = cexSheet.images
       ∧ (processSheet wEnv [] cexSheet cexSt).2 = cexSt) := by
  have hno : ∀ r, 2 ≤ r → r ≤ cexSheet.maxRow →
      validUrlCell (cexSheet.val r 8) = false := by
    intro r h2 hr
    have hr2 : r ≤ 2 := hr
    have hre : r = 2 := by omega
    subst hre
    decide
  exact ⟨hno, processSheet_no_url_frame wEnv [] cexSheet cexSt hno⟩

end URLDate

